import Mathlib

/-!
Verification of the genit iterator-adapter library (theteamatx/x-edr-genit).

Shallow embedding conventions:
* A base sequence is a `List α`; a base iterator into it is its integer offset
  from `begin`, so `begin = 0` and `end = L` where `L` is the length.
  This matches the random-access iterators the claims exercise
  (e.g. `IndexIterator` from iterator_facade.h with `begin = 0`).
* C++ `int` arithmetic is `Int` (`%` is `Int.tmod`, `/` is `Int.tdiv`,
  both truncating toward zero as in C++).
* Each C++ cursor class becomes a structure holding exactly the data members
  of the source class, and each of its facade primitives
  (`Increment`, `Decrement`, `IsEqual`, `DistanceTo`, `Advance`, `Dereference`)
  becomes a function on that structure, translated line by line from the
  corresponding header.
-/

namespace Genit

/-- Element of `base` at integer position `p` (dereferencing a base iterator);
`none` when out of range (dereferencing there is UB in the source). -/
def elemAt (base : List α) (p : Int) : Option α :=
  if p < 0 then none else base[p.toNat]?

/-! ### Plain circular iterator, from circular_iterator.h

`CircularIterator` stores `base_iter_` (modelled as the integer offset `pos`
from `BaseBegin()`), the base range (modelled by the parameter `L`, its size,
with `BaseBegin() = 0` and `BaseEnd() = L`), and `winding_`. -/

structure CircularIterator where
  pos : Int
  winding : Int
deriving DecidableEq, Repr

namespace CircularIterator

/-- Constructor: `base_iter_ = base_range->begin()`, and for an empty range
the winding number is normalized to 0. -/
def mk' (L : Int) (winding : Int) : CircularIterator :=
  { pos := 0, winding := if L = 0 then 0 else winding }

/-- `Increment`: `++base_iter_; if (base_iter_ == BaseEnd()) { base_iter_ = BaseBegin(); ++winding_; }` -/
def Increment (L : Int) (s : CircularIterator) : CircularIterator :=
  let p := s.pos + 1
  if p = L then { pos := 0, winding := s.winding + 1 } else { pos := p, winding := s.winding }

/-- `Decrement`: `if (base_iter_ == BaseBegin()) { --winding_; base_iter_ = BaseEnd(); } --base_iter_;` -/
def Decrement (L : Int) (s : CircularIterator) : CircularIterator :=
  if s.pos = 0 then { pos := L - 1, winding := s.winding - 1 }
  else { pos := s.pos - 1, winding := s.winding }

/-- `IsEqual`: `base_iter_ == rhs.base_iter_ && winding_ == rhs.winding_` -/
def IsEqual (a b : CircularIterator) : Bool :=
  a.pos == b.pos && a.winding == b.winding

/-- `DistanceTo`: `(rhs.base_iter_ - base_iter_) + (rhs.winding_ - winding_) * (BaseEnd() - BaseBegin())` -/
def DistanceTo (L : Int) (a b : CircularIterator) : Int :=
  (b.pos - a.pos) + (b.winding - a.winding) * L

/-- `Advance`: C++ `%` and `/` on `int` truncate toward zero, hence
`Int.tmod` / `Int.tdiv`.

```
base_iter_ += n;
const int distance_from_begin = base_iter_ - BaseBegin();
const int range_size = BaseEnd() - BaseBegin();
base_iter_ = BaseBegin() + (((distance_from_begin % range_size) + range_size) % range_size);
winding_ += distance_from_begin / range_size;
``` -/
def Advance (L : Int) (n : Int) (s : CircularIterator) : CircularIterator :=
  let d := s.pos + n
  { pos := (d.tmod L + L).tmod L, winding := s.winding + d.tdiv L }

/-- `Dereference`: `*base_iter_` -/
def Dereference (base : List α) (s : CircularIterator) : Option α :=
  elemAt base s.pos

end CircularIterator

/-! ### Linear adjacent iterator, from adjacent_iterator.h

`AdjacentIterator` stores `iterators_` (an array of `N` base iterators,
modelled as a list of `N` integer positions) and `offset_`. -/

/-- The begin-constructor fill of `iterators_` by `GuardedPostIncrement`:
starting at `it`, each slot stores the current iterator, which is then
incremented unless it equals `it_end` (= `L`). -/
def guardedFill (L : Int) : Int → Nat → List Int
  | _, 0 => []
  | it, n + 1 => it :: guardedFill L (if it ≠ L then it + 1 else it) n

structure AdjacentIterator where
  iterators : List Int
  offset : Nat
deriving DecidableEq, Repr

namespace AdjacentIterator

/-- `AdjacentIterator(it, it_end)` with `it = 0`, `it_end = L`: fills the `N`
slots with consecutive guarded post-increments of `begin`. -/
def mkBegin (L : Int) (N : Nat) : AdjacentIterator :=
  { iterators := guardedFill L 0 N, offset := 0 }

/-- `AdjacentIterator(it)` sentinel constructor with `it = it_end = L`:
all `N` slots hold `it`. -/
def mkEnd (L : Int) (N : Nat) : AdjacentIterator :=
  { iterators := List.replicate N L, offset := 0 }

/-- `BackIterator`: `iterators_[(offset_ + N - 1) % N]` -/
def BackIterator (s : AdjacentIterator) : Int :=
  let N := s.iterators.length
  s.iterators.getD ((s.offset + N - 1) % N) 0

/-- `Increment`:
```
const int trailing_id = (offset_ + N - 1) % N;
iterators_[offset_] = iterators_[trailing_id];
++iterators_[offset_];
offset_ = (offset_ + 1) % N;
``` -/
def Increment (s : AdjacentIterator) : AdjacentIterator :=
  let N := s.iterators.length
  let t := (s.offset + N - 1) % N
  { iterators := s.iterators.set s.offset (s.iterators.getD t 0 + 1),
    offset := (s.offset + 1) % N }

/-- `Decrement`:
```
const int trailing_id = (offset_ + N - 1) % N;
iterators_[trailing_id] = iterators_[offset_];
--iterators_[trailing_id];
offset_ = trailing_id;
``` -/
def Decrement (s : AdjacentIterator) : AdjacentIterator :=
  let N := s.iterators.length
  let t := (s.offset + N - 1) % N
  { iterators := s.iterators.set t (s.iterators.getD s.offset 0 - 1),
    offset := t }

/-- `IsEqual`: `rhs.BackIterator() == BackIterator()` -/
def IsEqual (a b : AdjacentIterator) : Bool :=
  b.BackIterator == a.BackIterator

/-- `DistanceTo`: `rhs.BackIterator() - BackIterator()` -/
def DistanceTo (a b : AdjacentIterator) : Int :=
  b.BackIterator - a.BackIterator

/-- `Advance(n)`: each stored iterator is advanced by `n`. -/
def Advance (n : Int) (s : AdjacentIterator) : AdjacentIterator :=
  { iterators := s.iterators.map (· + n), offset := s.offset }

/-- Dereference of the proxy at logical index `j`:
`ValueArrayProxy::operator[](j)` reads `data_[(j + offset_) % N]`, where
`data_` holds the dereferenced `iterators_` in physical order. -/
def DerefAt (base : List α) (s : AdjacentIterator) (j : Nat) : Option α :=
  let N := s.iterators.length
  elemAt base (s.iterators.getD ((j + s.offset) % N) 0)

end AdjacentIterator

/-! ### Circular adjacent iterator, from adjacent_circular_iterator.h

`AdjacentCircularIterator` stores `base_iter_` (an `AdjacentIterator`:
`iterators_` plus `offset_`), `it_begin_ = 0`, `it_end_ = L`, and
`winding_`. -/

structure AdjacentCircularIterator where
  iterators : List Int
  offset : Nat
  winding : Int
deriving DecidableEq, Repr

namespace AdjacentCircularIterator

/-- The constructor: `base_iter_(it, it_end)` fills the slots like the linear
begin-constructor, then any slot equal to `it_end_` forces
`winding_ = 666000` (the sentinel marking a range smaller than `N`). -/
def mk' (L : Int) (N : Nat) (winding : Int) : AdjacentCircularIterator :=
  let its := guardedFill L 0 N
  { iterators := its, offset := 0,
    winding := if L ∈ its then 666000 else winding }

/-- `FrontIterator`: `base_iter_.iterators_[base_iter_.offset_]` -/
def FrontIterator (s : AdjacentCircularIterator) : Int :=
  s.iterators.getD s.offset 0

/-- `Increment`: duplicate the trailing iterator into the leading slot,
increment it, wrap it to `it_begin_` (incrementing `winding_`) if it reaches
`it_end_`, and rotate `offset_`. -/
def Increment (L : Int) (s : AdjacentCircularIterator) : AdjacentCircularIterator :=
  let N := s.iterators.length
  let t := (s.offset + N - 1) % N
  let v := s.iterators.getD t 0 + 1
  if v = L then
    { iterators := s.iterators.set s.offset 0, offset := (s.offset + 1) % N,
      winding := s.winding + 1 }
  else
    { iterators := s.iterators.set s.offset v, offset := (s.offset + 1) % N,
      winding := s.winding }

/-- `Decrement`: duplicate the leading iterator into the trailing slot, wrap
it to `it_end_` (decrementing `winding_`) if it equals `it_begin_`, then
decrement it and move `offset_` back. -/
def Decrement (L : Int) (s : AdjacentCircularIterator) : AdjacentCircularIterator :=
  let N := s.iterators.length
  let t := (s.offset + N - 1) % N
  let v := s.iterators.getD s.offset 0
  if v = 0 then
    { iterators := s.iterators.set t (L - 1), offset := t, winding := s.winding - 1 }
  else
    { iterators := s.iterators.set t (v - 1), offset := t, winding := s.winding }

/-- `IsEqual`: `FrontIterator() == rhs.FrontIterator() && winding_ == rhs.winding_` -/
def IsEqual (a b : AdjacentCircularIterator) : Bool :=
  a.FrontIterator == b.FrontIterator && a.winding == b.winding

/-- `DistanceTo`:
`rhs.FrontIterator() - FrontIterator() + (rhs.winding_ - winding_) * (it_end_ - it_begin_)` -/
def DistanceTo (L : Int) (a b : AdjacentCircularIterator) : Int :=
  b.FrontIterator - a.FrontIterator + (b.winding - a.winding) * L

/-- Dereference of the proxy at logical index `j` (same proxy as the linear
adjacent iterator). -/
def DerefAt (base : List α) (s : AdjacentCircularIterator) (j : Nat) : Option α :=
  let N := s.iterators.length
  elemAt base (s.iterators.getD ((j + s.offset) % N) 0)

end AdjacentCircularIterator

/-! ### Concatenated range, from concat_range.h

The sub-ranges are `rs : List (List α)` (the heterogeneous `Ranges...` pack
collapses to a common element type in this embedding; `K = rs.length`).
`ConcatIterator` stores the variant `it_`: the active sub-range index
(`tag`, the variant index) and the active iterator, modelled as the offset
`pos` from that sub-range's begin. -/

structure ConcatIterator where
  tag : Nat
  pos : Nat
deriving DecidableEq, Repr

namespace ConcatIterator

/-- Sum of the lengths of the first `i` sub-ranges (the offset of sub-range
`i`'s begin in the concatenated range). -/
def pfx (rs : List (List α)) : Nat → Nat
  | 0 => 0
  | i + 1 =>
    match rs with
    | [] => 0
    | r :: rest => r.length + pfx rest i

/-- `SetAccumulatedSizes` running fold: `*(it++) = acc += SizeOfRange(...)`. -/
def accSizesFrom (acc : Int) : List (List α) → List Int
  | [] => []
  | r :: rest => (acc + r.length) :: accSizesFrom (acc + r.length) rest

/-- `accumulated_sizes_`: inclusive prefix sums of the sub-range sizes. -/
def accumulatedSizes (rs : List (List α)) : List Int :=
  accSizesFrom 0 rs

/-- `std::upper_bound(first, last, v)`: index of the first element greater
than `v`, or the length when there is none. -/
def upperBoundIdx (v : Int) : List Int → Nat
  | [] => 0
  | a :: rest => if v < a then 0 else upperBoundIdx v rest + 1

/-- `Increment` fold: starting from the active variant index, step the active
iterator, moving to the next sub-range's begin when it reaches the current
sub-range's end, and keep skipping while landing on an empty sub-range that is
not second-to-last. For the last sub-range, `++it` unconditionally. -/
def IncrementAux (rs : List (List α)) (id pos : Nat) : ConcatIterator :=
  if rs.length ≤ id + 1 then { tag := id, pos := pos + 1 }
  else
    let len := (rs.getD id []).length
    let pos' := if pos ≠ len then pos + 1 else pos
    if pos' = len then
      if id + 2 = rs.length ∨ (rs.getD (id + 1) []).isEmpty = false then { tag := id + 1, pos := 0 }
      else IncrementAux rs (id + 1) 0
    else { tag := id, pos := pos' }
termination_by rs.length - id

def Increment (rs : List (List α)) (s : ConcatIterator) : ConcatIterator :=
  IncrementAux rs s.tag s.pos

/-- `Decrement` fold: while the active iterator is at the begin of a
sub-range other than the first, move to the previous sub-range's end; then
`--it`. -/
def DecrementAux (rs : List (List α)) (id pos : Nat) : ConcatIterator :=
  if id ≠ 0 ∧ pos = 0 then DecrementAux rs (id - 1) (rs.getD (id - 1) []).length
  else { tag := id, pos := pos - 1 }
termination_by id

def Decrement (rs : List (List α)) (s : ConcatIterator) : ConcatIterator :=
  DecrementAux rs s.tag s.pos

/-- `ConcatIterator(BeginTag)`: active variant 0 at begin-of-0, then one
`Increment()` if sub-range 0 is empty. -/
def mkBegin (rs : List (List α)) : ConcatIterator :=
  if (rs.getD 0 []).isEmpty then Increment rs { tag := 0, pos := 0 }
  else { tag := 0, pos := 0 }

/-- `ConcatIterator(EndTag)`: active variant `K - 1` at end-of-last. -/
def mkEnd (rs : List (List α)) : ConcatIterator :=
  { tag := rs.length - 1, pos := (rs.getD (rs.length - 1) []).length }

/-- `IsEqual`: `it_ == rhs.it_` (`std::variant` equality: same index and
equal iterators). -/
def IsEqual (a b : ConcatIterator) : Bool :=
  a.tag == b.tag && a.pos == b.pos

/-- `IndexOfIterator`:
`accumulated_sizes_[Id] - (EndOf<Id>() - std::get<Id>(it_))`. -/
def IndexOfIterator (rs : List (List α)) (s : ConcatIterator) : Int :=
  (accumulatedSizes rs).getD s.tag 0 - (((rs.getD s.tag []).length : Int) - s.pos)

/-- `SetToIndex`: `upper_bound` over `accumulated_sizes_`, capped at `K - 1`;
then position the new active iterator at
`BeginOf<Id>() + (index - (accumulated_sizes_[Id] - size))`.
(A negative relative index is UB in the source; `Int.toNat` models the
defined cases.) -/
def SetToIndex (rs : List (List α)) (index : Int) : ConcatIterator :=
  let id := min (rs.length - 1) (upperBoundIdx index (accumulatedSizes rs))
  let offset := (accumulatedSizes rs).getD id 0 - ((rs.getD id []).length : Int)
  { tag := id, pos := (index - offset).toNat }

/-- `DistanceTo`: difference of the global indices. -/
def DistanceTo (rs : List (List α)) (a b : ConcatIterator) : Int :=
  IndexOfIterator rs b - IndexOfIterator rs a

/-- `Advance(n)`: `SetToIndex(IndexOfIterator() + n)`. -/
def Advance (rs : List (List α)) (n : Int) (s : ConcatIterator) : ConcatIterator :=
  SetToIndex rs (IndexOfIterator rs s + n)

/-- `Dereference`: `*it` for the active iterator. -/
def Dereference (rs : List (List α)) (s : ConcatIterator) : Option α :=
  (rs.getD s.tag [])[s.pos]?

/-- Iterating from `s`, collecting dereferenced values until reaching a
cursor equal to `end()` (with `fuel` bounding the number of steps). -/
def traverse (rs : List (List α)) : Nat → ConcatIterator → List (Option α)
  | 0, _ => []
  | fuel + 1, s =>
    if IsEqual s (mkEnd rs) then []
    else Dereference rs s :: traverse rs fuel (Increment rs s)

end ConcatIterator

/-! ### Iterator-pair range wrapper, from iterator_range.h

`IteratorRange` pairs a begin and an end cursor.  The claims exercise it at
the circular-iterator instantiation (as produced by `CircularRange`), so the
cursor type here is `CircularIterator`.  `size()` is `std::distance`, which
for these random-access cursors is `begin_.DistanceTo(end_)`; `operator[]`
is `begin_[at]`, which the iterator facade implements as advance-a-copy
then dereference. -/

structure IteratorRange where
  begin_ : CircularIterator
  end_ : CircularIterator
deriving DecidableEq, Repr

namespace IteratorRange

/-- `size()`: `std::distance(begin_, end_)`. -/
def size (L : Int) (r : IteratorRange) : Int :=
  CircularIterator.DistanceTo L r.begin_ r.end_

/-- `empty()`: `begin_ == end_`. -/
def empty (r : IteratorRange) : Bool :=
  CircularIterator.IsEqual r.begin_ r.end_

/-- `operator bool()`: `begin_ != end_`. -/
def toBool (r : IteratorRange) : Bool :=
  !CircularIterator.IsEqual r.begin_ r.end_

/-- `front()`: `*begin_`. -/
def front (base : List α) (r : IteratorRange) : Option α :=
  CircularIterator.Dereference base r.begin_

/-- `operator[](at)`: `begin_[at]`, i.e. dereference an advanced copy of
`begin_` (IteratorFacade::operator[]). -/
def getAt (base : List α) (L : Int) (r : IteratorRange) (i : Int) : Option α :=
  CircularIterator.Dereference base (CircularIterator.Advance L i r.begin_)

end IteratorRange

/-- `CircularRangeT::Begin/End` (with `connect = false`), as built by
`CircularRange(range, windings)`: begin is the circular cursor at winding 0,
end the one at winding `windings`. -/
def CircularRange (L : Int) (windings : Int) : IteratorRange :=
  { begin_ := CircularIterator.mk' L 0, end_ := CircularIterator.mk' L windings }

/-! ### Specification-side definitions used by the proofs -/

namespace ConcatIterator

/-- Total size of the concatenated range. -/
def totalSize (rs : List (List α)) : Nat :=
  pfx rs rs.length

/-- The sub-range containing global index `g`: the first one whose inclusive
prefix sum exceeds `g`. -/
def jOf (rs : List (List α)) (g : Nat) : Nat :=
  upperBoundIdx (g : Int) (accumulatedSizes rs)

/-- The canonical cursor at global index `g`: the end sentinel at
`g = totalSize`, otherwise positioned inside the sub-range containing `g`. -/
def canonSt (rs : List (List α)) (g : Nat) : ConcatIterator :=
  if g = totalSize rs then mkEnd rs
  else { tag := jOf rs g, pos := g - pfx rs (jOf rs g) }

end ConcatIterator

/-- Cursors reachable from a constructed concatenation cursor by in-range
increments, decrements and bulk advances (out-of-range stepping is UB in the
source). -/
inductive ConcatReachable (rs : List (List α)) : ConcatIterator → Prop
  | beginCtor : ConcatReachable rs (ConcatIterator.mkBegin rs)
  | endCtor : ConcatReachable rs (ConcatIterator.mkEnd rs)
  | inc (s : ConcatIterator) : ConcatReachable rs s →
      ConcatIterator.IsEqual s (ConcatIterator.mkEnd rs) = false →
      ConcatReachable rs (ConcatIterator.Increment rs s)
  | dec (s : ConcatIterator) : ConcatReachable rs s →
      ConcatIterator.IsEqual s (ConcatIterator.mkBegin rs) = false →
      ConcatReachable rs (ConcatIterator.Decrement rs s)
  | adv (s : ConcatIterator) (n : Int) : ConcatReachable rs s →
      0 ≤ ConcatIterator.IndexOfIterator rs s + n →
      ConcatIterator.IndexOfIterator rs s + n ≤ ConcatIterator.totalSize rs →
      ConcatReachable rs (ConcatIterator.Advance rs n s)

/-- The linear adjacent cursor representing window `i` (for a base range of
any length): `N` stored cursors at consecutive positions `i, …, i + N - 1`,
rotated so that the logically-first one sits at slot `offset = i % N`. -/
def AdjacentIterator.IsWindow (N i : Nat) (s : AdjacentIterator) : Prop :=
  s.iterators.length = N ∧ s.offset = i % N ∧
    ∀ j < N, s.iterators.getD ((s.offset + j) % N) 0 = (i : Int) + j

/-- The circular adjacent cursor representing window `i` of a pass that
started at winding 0 over a base of length `L`: `N` stored cursors at the
consecutive positions `(i + j) % L`, and the winding that the
trailing-iterator-wrap bookkeeping produces, `(i + N - 1) / L`. -/
def AdjacentCircularIterator.IsWindow (L N i : Nat) (s : AdjacentCircularIterator) : Prop :=
  s.iterators.length = N ∧ s.offset = i % N ∧
    (∀ j < N, s.iterators.getD ((s.offset + j) % N) 0 = (((i + j) % L : Nat) : Int)) ∧
    s.winding = ((i + N - 1) / L : Nat)

/-! ### Facts about the begin-constructor fill `guardedFill` -/

theorem length_guardedFill (L it : Int) (n : Nat) : (guardedFill L it n).length = n := by
  induction n generalizing it with
  | zero => rfl
  | succ n ih => simp [guardedFill, ih]

theorem guardedFill_getD (L : Int) (n : Nat) :
    ∀ (it : Int) (k : Nat), it ≤ L → k < n →
      (guardedFill L it n).getD k 0 = min (it + k) L := by
  induction n with
  | zero => omega
  | succ n ih =>
    intro it k h hk
    cases k with
    | zero =>
      show it = min (it + 0) L
      omega
    | succ k =>
      show (guardedFill L (if it ≠ L then it + 1 else it) n).getD k 0 = min (it + (k + 1 : Nat)) L
      by_cases hil : it = L
      · rw [if_neg (by simp [hil])]
        rw [ih it k h (by omega)]
        omega
      · rw [if_pos hil]
        rw [ih (it + 1) k (by omega) (by omega)]
        push_cast
        omega

theorem mem_guardedFill_of_lt (Ln N : Nat) (h : Ln < N) :
    (Ln : Int) ∈ guardedFill (Ln : Int) 0 N := by
  have hg : (guardedFill (Ln : Int) 0 N).getD Ln 0 = Ln := by
    rw [guardedFill_getD _ _ _ _ (by positivity) h]
    omega
  have hlen : Ln < (guardedFill (Ln : Int) 0 N).length := by
    rw [length_guardedFill]; exact h
  rw [List.getD_eq_getElem _ _ hlen] at hg
  have hm := List.getElem_mem hlen
  rw [hg] at hm
  exact hm

theorem not_mem_guardedFill_of_le (Ln N : Nat) (h : N ≤ Ln) :
    (Ln : Int) ∉ guardedFill (Ln : Int) 0 N := by
  intro hmem
  obtain ⟨k, hk, hEq⟩ := List.mem_iff_getElem.mp hmem
  rw [length_guardedFill] at hk
  rw [← List.getD_eq_getElem _ 0 (by rw [length_guardedFill]; exact hk)] at hEq
  rw [guardedFill_getD _ _ _ _ (by positivity) hk] at hEq
  omega

/-! ### General helper lemmas -/

theorem getD_set_self' {α : Type} (l : List α) (a : Nat) (v d : α) (h : a < l.length) :
    (l.set a v).getD a d = v := by
  rw [List.getD_eq_getElem _ _ (by simpa using h)]
  exact List.getElem_set_self _

theorem getD_set_ne' {α : Type} (l : List α) (a b : Nat) (v d : α) (h : a ≠ b) :
    (l.set a v).getD b d = l.getD b d := by
  by_cases hb : b < l.length
  · rw [List.getD_eq_getElem _ _ (by simpa using hb), List.getD_eq_getElem _ _ hb]
    exact List.getElem_set_ne h _
  · rw [List.getD_eq_default _ _ (by simp; omega), List.getD_eq_default _ _ (by omega)]

theorem succ_mod_eq (a n : Nat) (hn : 0 < n) :
    (a + 1) % n = if a % n = n - 1 then 0 else a % n + 1 := by
  rcases Nat.lt_or_ge 1 n with h2 | h2
  · have h1 : 1 % n = 1 := Nat.mod_eq_of_lt h2
    have hlt : a % n < n := Nat.mod_lt a hn
    rw [Nat.add_mod, h1]
    split_ifs with hc
    · rw [hc]
      have : n - 1 + 1 = n := by omega
      rw [this, Nat.mod_self]
    · exact Nat.mod_eq_of_lt (by omega)
  · have hn1 : n = 1 := by omega
    subst hn1
    simp [Nat.mod_one]

theorem mod_mod_lt_self (a n : Nat) (hn : 0 < n) : a % n < n := Nat.mod_lt a hn

/-! ### Window invariant for the linear adjacent cursor -/

theorem isWindow_mkBegin (Ln N : Nat) (hN : 1 ≤ N) (h : N ≤ Ln) :
    AdjacentIterator.IsWindow N 0 (AdjacentIterator.mkBegin (Ln : Int) N) := by
  refine ⟨length_guardedFill _ _ _, by simp [AdjacentIterator.mkBegin], ?_⟩
  intro j hj
  show (guardedFill (Ln : Int) 0 N).getD ((0 + j) % N) 0 = (0 : Int) + j
  have hjj : (0 + j) % N = j := by
    rw [Nat.zero_add]
    exact Nat.mod_eq_of_lt hj
  rw [hjj, guardedFill_getD _ _ _ _ (by positivity) hj]
  have : (j : Int) ≤ Ln := by exact_mod_cast Nat.le_of_lt (Nat.lt_of_lt_of_le hj h)
  omega

theorem isWindow_increment (N i : Nat) (s : AdjacentIterator) (hN : 1 ≤ N)
    (hw : AdjacentIterator.IsWindow N i s) :
    AdjacentIterator.IsWindow N (i + 1) (AdjacentIterator.Increment s) := by
  obtain ⟨hlen, hoff, hslots⟩ := hw
  have hoN : s.offset < N := by
    rw [hoff]; exact Nat.mod_lt i hN
  refine ⟨by simp [AdjacentIterator.Increment, hlen], ?_, ?_⟩
  · simp only [AdjacentIterator.Increment, hlen, hoff]
    exact Nat.mod_add_mod i N 1
  · intro j hj
    simp only [AdjacentIterator.Increment, hlen]
    have hidx : (((s.offset + 1) % N + j) % N) = (s.offset + (j + 1)) % N := by
      rw [Nat.mod_add_mod]
      congr 1
      omega
    rw [hidx]
    rcases Nat.lt_or_ge j (N - 1) with hjN | hjN
    · have hne : s.offset ≠ (s.offset + (j + 1)) % N := by
        intro hEq
        have h1 : (s.offset + (j + 1)) % N = (s.offset % N + (j + 1) % N) % N := by
          rw [Nat.add_mod]
        have h2 : (j + 1) % N = j + 1 := Nat.mod_eq_of_lt (by omega)
        have h3 : s.offset % N = s.offset := Nat.mod_eq_of_lt hoN
        rw [h1, h2, h3] at hEq
        rcases Nat.lt_or_ge (s.offset + (j + 1)) N with hlt | hge
        · rw [Nat.mod_eq_of_lt hlt] at hEq
          omega
        · have : s.offset + (j + 1) < 2 * N := by omega
          have : (s.offset + (j + 1)) % N = s.offset + (j + 1) - N := by
            rw [Nat.mod_eq_sub_mod hge, Nat.mod_eq_of_lt (by omega)]
          omega
      rw [getD_set_ne' _ _ _ _ _ hne]
      have := hslots (j + 1) (by omega)
      rw [this]
      push_cast
      ring
    · have hjeq : j = N - 1 := by omega
      subst hjeq
      have hidx2 : (s.offset + (N - 1 + 1)) % N = s.offset := by
        have : N - 1 + 1 = N := by omega
        rw [this, Nat.add_mod_right]
        exact Nat.mod_eq_of_lt hoN
      rw [hidx2, getD_set_self' _ _ _ _ (by rw [hlen]; exact hoN)]
      have hback := hslots (N - 1) (by omega)
      rw [show (s.offset + N - 1) % N = (s.offset + (N - 1)) % N by congr 1; omega, hback]
      push_cast
      omega

theorem isWindow_iterate (Ln N : Nat) (hN : 1 ≤ N) (h : N ≤ Ln) (i : Nat) :
    AdjacentIterator.IsWindow N i
      ((AdjacentIterator.Increment)^[i] (AdjacentIterator.mkBegin (Ln : Int) N)) := by
  induction i with
  | zero => exact isWindow_mkBegin Ln N hN h
  | succ i ih =>
    rw [Function.iterate_succ_apply']
    exact isWindow_increment N i _ hN ih

theorem backIterator_of_isWindow (N i : Nat) (s : AdjacentIterator) (hN : 1 ≤ N)
    (hw : AdjacentIterator.IsWindow N i s) :
    s.BackIterator = (i : Int) + (N - 1 : Nat) := by
  obtain ⟨hlen, hoff, hslots⟩ := hw
  have := hslots (N - 1) (by omega)
  simp only [AdjacentIterator.BackIterator, hlen]
  rw [show (s.offset + N - 1) % N = (s.offset + (N - 1)) % N by congr 1; omega]
  exact this

theorem elemAt_natCast {α : Type} (base : List α) (k : Nat) :
    elemAt base (k : Int) = base[k]? := by
  unfold elemAt
  rw [if_neg (by omega), Int.toNat_natCast]

theorem backIterator_mkEnd (L : Int) (N : Nat) (hN : 1 ≤ N) :
    (AdjacentIterator.mkEnd L N).BackIterator = L := by
  have hlt : (0 + (List.replicate N L).length - 1) % (List.replicate N L).length <
      (List.replicate N L).length := by
    simp only [List.length_replicate]
    exact Nat.mod_lt _ (by omega)
  simp only [AdjacentIterator.mkEnd, AdjacentIterator.BackIterator]
  rw [List.getD_eq_getElem _ _ hlt]
  exact List.getElem_replicate _ hlt

/-! ### Concatenation: prefix sums, accumulated sizes, upper bound -/

namespace ConcatIterator

theorem pfx_zero {α : Type} (rs : List (List α)) : pfx rs 0 = 0 := by
  cases rs <;> rfl

theorem pfx_succ {α : Type} (rs : List (List α)) :
    ∀ i, i < rs.length → pfx rs (i + 1) = pfx rs i + (rs.getD i []).length := by
  induction rs with
  | nil => intro i hi; simp at hi
  | cons r rest ih =>
    intro i hi
    cases i with
    | zero => simp [pfx]
    | succ i =>
      show r.length + pfx rest (i + 1) = r.length + pfx rest i + (rest.getD i []).length
      rw [ih i (by simpa using hi)]
      ring

theorem pfx_stable {α : Type} (rs : List (List α)) :
    ∀ i, rs.length ≤ i → pfx rs i = pfx rs rs.length := by
  induction rs with
  | nil => intro i _; cases i <;> rfl
  | cons r rest ih =>
    intro i hi
    cases i with
    | zero => simp at hi
    | succ i =>
      show r.length + pfx rest i = r.length + pfx rest rest.length
      rw [ih i (by simpa using hi)]

theorem pfx_mono {α : Type} (rs : List (List α)) :
    ∀ i j, i ≤ j → pfx rs i ≤ pfx rs j := by
  induction rs with
  | nil =>
    intro i j _
    cases i <;> cases j <;> simp [pfx]
  | cons r rest ih =>
    intro i j hij
    cases i with
    | zero =>
      cases j with
      | zero => exact le_rfl
      | succ j => show pfx (r :: rest) 0 ≤ r.length + pfx rest j; simp [pfx]
    | succ i =>
      cases j with
      | zero => omega
      | succ j =>
        show r.length + pfx rest i ≤ r.length + pfx rest j
        exact Nat.add_le_add_left (ih i j (by omega)) _

theorem pfx_le_total {α : Type} (rs : List (List α)) (i : Nat) :
    pfx rs i ≤ totalSize rs := by
  rcases Nat.le_total i rs.length with h | h
  · exact pfx_mono rs i rs.length h
  · rw [totalSize, ← pfx_stable rs i h]

theorem length_accSizesFrom {α : Type} (acc : Int) (rs : List (List α)) :
    (accSizesFrom acc rs).length = rs.length := by
  induction rs generalizing acc with
  | nil => rfl
  | cons r rest ih => simp [accSizesFrom, ih]

theorem accSizesFrom_getD {α : Type} (rs : List (List α)) :
    ∀ (acc : Int) (i : Nat), i < rs.length →
      (accSizesFrom acc rs).getD i 0 = acc + pfx rs (i + 1) := by
  induction rs with
  | nil => intro acc i hi; simp at hi
  | cons r rest ih =>
    intro acc i hi
    cases i with
    | zero =>
      show acc + (r.length : Int) = acc + ((r.length + pfx rest 0 : Nat) : Int)
      simp [pfx]
    | succ i =>
      show (accSizesFrom (acc + r.length) rest).getD i 0 =
        acc + ((r.length + pfx rest (i + 1) : Nat) : Int)
      rw [ih (acc + r.length) i (by simpa using hi)]
      push_cast
      ring

theorem accumulatedSizes_getD {α : Type} (rs : List (List α)) (i : Nat)
    (hi : i < rs.length) :
    (accumulatedSizes rs).getD i 0 = (pfx rs (i + 1) : Int) := by
  rw [accumulatedSizes, accSizesFrom_getD rs 0 i hi, zero_add]

theorem length_accumulatedSizes {α : Type} (rs : List (List α)) :
    (accumulatedSizes rs).length = rs.length :=
  length_accSizesFrom 0 rs

theorem upperBoundIdx_le_length (v : Int) (l : List Int) :
    upperBoundIdx v l ≤ l.length := by
  induction l with
  | nil => exact le_rfl
  | cons a rest ih =>
    rw [upperBoundIdx]
    split_ifs
    · omega
    · simpa using ih

theorem upperBoundIdx_spec_le (v : Int) (l : List Int) :
    ∀ j, j < upperBoundIdx v l → l.getD j 0 ≤ v := by
  induction l with
  | nil => intro j hj; simp [upperBoundIdx] at hj
  | cons a rest ih =>
    intro j hj
    rw [upperBoundIdx] at hj
    split_ifs at hj with hv
    · omega
    · cases j with
      | zero => simpa using not_lt.mp hv
      | succ j => exact ih j (by omega)

theorem upperBoundIdx_spec_gt (v : Int) (l : List Int)
    (h : upperBoundIdx v l < l.length) : v < l.getD (upperBoundIdx v l) 0 := by
  induction l with
  | nil => simp at h
  | cons a rest ih =>
    rw [upperBoundIdx] at h ⊢
    split_ifs at h ⊢ with hv
    · simpa using hv
    · exact ih (by simpa using h)

/-! #### The sub-range located by `upper_bound` -/

theorem jOf_lt_length {α : Type} (rs : List (List α)) (g : Nat) (hK : rs ≠ [])
    (hg : g < totalSize rs) : jOf rs g < rs.length := by
  have hK0 : 0 < rs.length := List.length_pos.mpr hK
  have hle : jOf rs g ≤ rs.length := by
    have := upperBoundIdx_le_length (g : Int) (accumulatedSizes rs)
    rwa [length_accumulatedSizes] at this
  rcases Nat.lt_or_ge (jOf rs g) rs.length with h | h
  · exact h
  · exfalso
    have hEq : jOf rs g = rs.length := by omega
    have hlast := upperBoundIdx_spec_le (g : Int) (accumulatedSizes rs)
      (rs.length - 1) (by rw [← jOf] at *; omega)
    rw [accumulatedSizes_getD rs _ (by omega)] at hlast
    rw [show rs.length - 1 + 1 = rs.length from by omega] at hlast
    have : totalSize rs ≤ g := by exact_mod_cast hlast
    omega

theorem pfx_jOf_le {α : Type} (rs : List (List α)) (g : Nat) (hK : rs ≠ [])
    (hg : g < totalSize rs) : pfx rs (jOf rs g) ≤ g := by
  rcases Nat.eq_zero_or_pos (jOf rs g) with h0 | h0
  · rw [h0, pfx_zero]
    exact Nat.zero_le g
  · have hj := jOf_lt_length rs g hK hg
    have hprev := upperBoundIdx_spec_le (g : Int) (accumulatedSizes rs)
      (jOf rs g - 1) (by rw [← jOf] at *; omega)
    rw [accumulatedSizes_getD rs _ (by omega)] at hprev
    rw [show jOf rs g - 1 + 1 = jOf rs g from by omega] at hprev
    exact_mod_cast hprev

theorem lt_pfx_jOf_succ {α : Type} (rs : List (List α)) (g : Nat) (hK : rs ≠ [])
    (hg : g < totalSize rs) : g < pfx rs (jOf rs g + 1) := by
  have hj := jOf_lt_length rs g hK hg
  have hgt := upperBoundIdx_spec_gt (g : Int) (accumulatedSizes rs)
    (by rw [length_accumulatedSizes]; exact hj)
  rw [show upperBoundIdx (g : Int) (accumulatedSizes rs) = jOf rs g from rfl] at hgt
  rw [accumulatedSizes_getD rs _ hj] at hgt
  exact_mod_cast hgt

theorem jOf_eq {α : Type} (rs : List (List α)) (g t : Nat) (ht : t < rs.length)
    (h1 : pfx rs t ≤ g) (h2 : g < pfx rs (t + 1)) : jOf rs g = t := by
  have hK : rs ≠ [] := by rintro rfl; simp at ht
  have hg : g < totalSize rs := Nat.lt_of_lt_of_le h2 (pfx_le_total rs (t + 1))
  have hj := jOf_lt_length rs g hK hg
  rcases Nat.lt_trichotomy (jOf rs g) t with hlt | hEq | hgt
  · exfalso
    have := lt_pfx_jOf_succ rs g hK hg
    have hmono := pfx_mono rs (jOf rs g + 1) t (by omega)
    omega
  · exact hEq
  · exfalso
    have := upperBoundIdx_spec_le (g : Int) (accumulatedSizes rs) t
      (by rw [← jOf] at *; omega)
    rw [accumulatedSizes_getD rs _ ht] at this
    have : pfx rs (t + 1) ≤ g := by exact_mod_cast this
    omega

/-! #### Canonical cursors -/

theorem canonSt_total {α : Type} (rs : List (List α)) :
    canonSt rs (totalSize rs) = mkEnd rs := by
  simp [canonSt]

theorem canonSt_lt {α : Type} (rs : List (List α)) (g : Nat) (hg : g < totalSize rs) :
    canonSt rs g = { tag := jOf rs g, pos := g - pfx rs (jOf rs g) } := by
  rw [canonSt, if_neg (by omega)]

theorem pos_canonSt_lt_len {α : Type} (rs : List (List α)) (g : Nat) (hK : rs ≠ [])
    (hg : g < totalSize rs) :
    g - pfx rs (jOf rs g) < (rs.getD (jOf rs g) []).length := by
  have h2 := lt_pfx_jOf_succ rs g hK hg
  have h1 := pfx_jOf_le rs g hK hg
  have hstep := pfx_succ rs (jOf rs g) (jOf_lt_length rs g hK hg)
  omega

theorem indexOf_canonSt {α : Type} (rs : List (List α)) (g : Nat) (hK : rs ≠ [])
    (hg : g ≤ totalSize rs) :
    IndexOfIterator rs (canonSt rs g) = (g : Int) := by
  have hK0 : 0 < rs.length := List.length_pos.mpr hK
  rcases Nat.lt_or_ge g (totalSize rs) with hlt | hge
  · rw [canonSt_lt rs g hlt]
    have h1 := pfx_jOf_le rs g hK hlt
    have hstep := pfx_succ rs (jOf rs g) (jOf_lt_length rs g hK hlt)
    show (accumulatedSizes rs).getD (jOf rs g) 0 -
      (((rs.getD (jOf rs g) []).length : Int) - ((g - pfx rs (jOf rs g) : Nat) : Int)) = g
    rw [accumulatedSizes_getD rs _ (jOf_lt_length rs g hK hlt)]
    have hc : ((g - pfx rs (jOf rs g) : Nat) : Int) =
        (g : Int) - (pfx rs (jOf rs g) : Int) := by
      rw [Nat.cast_sub h1]
    rw [hc]
    have hcs : (pfx rs (jOf rs g + 1) : Int) =
        (pfx rs (jOf rs g) : Int) + ((rs.getD (jOf rs g) []).length : Int) := by
      exact_mod_cast congrArg (Nat.cast (R := Int)) hstep
    omega
  · have hEq : g = totalSize rs := by omega
    subst hEq
    rw [canonSt_total]
    show (accumulatedSizes rs).getD (rs.length - 1) 0 -
      (((rs.getD (rs.length - 1) []).length : Int) -
        ((rs.getD (rs.length - 1) []).length : Int)) = (totalSize rs : Int)
    rw [accumulatedSizes_getD rs _ (by omega)]
    rw [show rs.length - 1 + 1 = rs.length from by omega]
    rw [totalSize]
    ring

theorem canonSt_inj {α : Type} (rs : List (List α)) (g1 g2 : Nat) (hK : rs ≠ [])
    (h1 : g1 ≤ totalSize rs) (h2 : g2 ≤ totalSize rs)
    (hEq : canonSt rs g1 = canonSt rs g2) : g1 = g2 := by
  have := indexOf_canonSt rs g1 hK h1
  rw [hEq, indexOf_canonSt rs g2 hK h2] at this
  exact_mod_cast this.symm

theorem isEqual_canonSt {α : Type} (rs : List (List α)) (g1 g2 : Nat) (hK : rs ≠ [])
    (h1 : g1 ≤ totalSize rs) (h2 : g2 ≤ totalSize rs) :
    IsEqual (canonSt rs g1) (canonSt rs g2) = true ↔ g1 = g2 := by
  constructor
  · intro hIsEq
    simp only [IsEqual, Bool.and_eq_true, beq_iff_eq] at hIsEq
    have hstr : canonSt rs g1 = canonSt rs g2 := by
      cases hc1 : canonSt rs g1
      cases hc2 : canonSt rs g2
      rw [hc1, hc2] at hIsEq
      simp_all
    exact canonSt_inj rs g1 g2 hK h1 h2 hstr
  · intro hEq
    subst hEq
    simp [IsEqual]

/-! #### Dereference of a canonical cursor -/

theorem flatten_getElem? {α : Type} (rs : List (List α)) :
    ∀ t g, t < rs.length → pfx rs t ≤ g → g < pfx rs (t + 1) →
      rs.flatten[g]? = (rs.getD t [])[g - pfx rs t]? := by
  induction rs with
  | nil => intro t g ht _ _; simp at ht
  | cons r rest ih =>
    intro t g ht h1 h2
    cases t with
    | zero =>
      have h2' : g < r.length := by
        have hp : pfx (r :: rest) 1 = r.length + pfx rest 0 := rfl
        rw [hp, pfx_zero] at h2
        omega
      show (r ++ rest.flatten)[g]? = r[g - pfx (r :: rest) 0]?
      rw [List.getElem?_append_left h2', pfx_zero, Nat.sub_zero]
    | succ t =>
      have hp1 : pfx (r :: rest) (t + 1) = r.length + pfx rest t := rfl
      have hp2 : pfx (r :: rest) (t + 2) = r.length + pfx rest (t + 1) := rfl
      rw [hp1] at h1
      rw [hp2] at h2
      show (r ++ rest.flatten)[g]? = (rest.getD t [])[g - pfx (r :: rest) (t + 1)]?
      rw [List.getElem?_append_right (by omega), hp1]
      rw [ih t (g - r.length) (by simpa using ht) (by omega) (by omega)]
      rw [show g - r.length - pfx rest t = g - (r.length + pfx rest t) from by omega]

theorem deref_canonSt {α : Type} (rs : List (List α)) (g : Nat) (hK : rs ≠ [])
    (hg : g < totalSize rs) :
    Dereference rs (canonSt rs g) = rs.flatten[g]? := by
  rw [canonSt_lt rs g hg]
  exact (flatten_getElem? rs (jOf rs g) g (jOf_lt_length rs g hK hg)
    (pfx_jOf_le rs g hK hg) (lt_pfx_jOf_succ rs g hK hg)).symm

theorem length_flatten_eq_totalSize {α : Type} (rs : List (List α)) :
    rs.flatten.length = totalSize rs := by
  induction rs with
  | nil => rfl
  | cons r rest ih =>
    have hstep : totalSize (r :: rest) = r.length + totalSize rest := rfl
    simp [hstep, ih]

/-! #### `SetToIndex` repositions to the canonical cursor -/

theorem upperBoundIdx_total {α : Type} (rs : List (List α)) (hK : rs ≠ []) :
    upperBoundIdx (totalSize rs : Int) (accumulatedSizes rs) = rs.length := by
  have hK0 : 0 < rs.length := List.length_pos.mpr hK
  have hle := upperBoundIdx_le_length (totalSize rs : Int) (accumulatedSizes rs)
  rw [length_accumulatedSizes] at hle
  rcases Nat.lt_or_ge (upperBoundIdx (totalSize rs : Int) (accumulatedSizes rs))
      rs.length with h | h
  · exfalso
    have hgt := upperBoundIdx_spec_gt (totalSize rs : Int) (accumulatedSizes rs)
      (by rw [length_accumulatedSizes]; exact h)
    rw [accumulatedSizes_getD rs _ h] at hgt
    have hb := pfx_le_total rs (upperBoundIdx (totalSize rs : Int) (accumulatedSizes rs) + 1)
    omega
  · omega

theorem setToIndex_canonSt {α : Type} (rs : List (List α)) (m : Nat) (hK : rs ≠ [])
    (hm : m ≤ totalSize rs) :
    SetToIndex rs (m : Int) = canonSt rs m := by
  have hK0 : 0 < rs.length := List.length_pos.mpr hK
  rcases Nat.lt_or_ge m (totalSize rs) with hlt | hge
  · have hj := jOf_lt_length rs m hK hlt
    have h1 := pfx_jOf_le rs m hK hlt
    have hstep := pfx_succ rs (jOf rs m) hj
    show { tag := min (rs.length - 1) (upperBoundIdx (m : Int) (accumulatedSizes rs)),
           pos := ((m : Int) -
             ((accumulatedSizes rs).getD
               (min (rs.length - 1) (upperBoundIdx (m : Int) (accumulatedSizes rs))) 0 -
              ((rs.getD (min (rs.length - 1)
                 (upperBoundIdx (m : Int) (accumulatedSizes rs))) []).length : Int))).toNat } =
      canonSt rs m
    rw [show upperBoundIdx (m : Int) (accumulatedSizes rs) = jOf rs m from rfl]
    rw [Nat.min_eq_right (by omega)]
    rw [canonSt_lt rs m hlt]
    have hoff : (accumulatedSizes rs).getD (jOf rs m) 0 -
        ((rs.getD (jOf rs m) []).length : Int) = (pfx rs (jOf rs m) : Int) := by
      rw [accumulatedSizes_getD rs _ hj]
      have : (pfx rs (jOf rs m + 1) : Int) =
          (pfx rs (jOf rs m) : Int) + ((rs.getD (jOf rs m) []).length : Int) := by
        exact_mod_cast congrArg (Nat.cast (R := Int)) hstep
      omega
    rw [hoff, Int.toNat_sub]
  · have hEq : m = totalSize rs := by omega
    subst hEq
    show { tag := min (rs.length - 1)
             (upperBoundIdx (totalSize rs : Int) (accumulatedSizes rs)),
           pos := ((totalSize rs : Int) -
             ((accumulatedSizes rs).getD
               (min (rs.length - 1)
                 (upperBoundIdx (totalSize rs : Int) (accumulatedSizes rs))) 0 -
              ((rs.getD (min (rs.length - 1)
                 (upperBoundIdx (totalSize rs : Int) (accumulatedSizes rs))) []).length :
                Int))).toNat } =
      canonSt rs (totalSize rs)
    rw [upperBoundIdx_total rs hK, Nat.min_eq_left (by omega), canonSt_total]
    have hstep := pfx_succ rs (rs.length - 1) (by omega)
    rw [show rs.length - 1 + 1 = rs.length from by omega] at hstep
    have hoff : (accumulatedSizes rs).getD (rs.length - 1) 0 -
        ((rs.getD (rs.length - 1) []).length : Int) =
        (pfx rs (rs.length - 1) : Int) := by
      rw [accumulatedSizes_getD rs _ (by omega)]
      rw [show rs.length - 1 + 1 = rs.length from by omega]
      have hc : (pfx rs rs.length : Int) = (pfx rs (rs.length - 1) : Int) +
          ((rs.getD (rs.length - 1) []).length : Int) := by
        exact_mod_cast congrArg (Nat.cast (R := Int)) hstep
      omega
    rw [hoff, Int.toNat_sub]
    have htot : totalSize rs = pfx rs rs.length := rfl
    have hpos : totalSize rs - pfx rs (rs.length - 1) =
        (rs.getD (rs.length - 1) []).length := by omega
    rw [hpos]
    rfl

/-! #### `Increment` moves to the next canonical cursor -/

theorem incrementAux_empty {α : Type} (rs : List (List α)) :
    ∀ d u, rs.length - u ≤ d → u + 1 < rs.length →
      (rs.getD u []).isEmpty = true →
      IncrementAux rs u 0 = canonSt rs (pfx rs u) := by
  intro d
  induction d with
  | zero => intro u hd hu _; omega
  | succ d ih =>
    intro u hd hu he
    have hu0 : rs.getD u [] = [] := List.isEmpty_iff.mp he
    have hlen0 : (rs.getD u []).length = 0 := by rw [hu0]; rfl
    have hpfxu : pfx rs (u + 1) = pfx rs u := by
      rw [pfx_succ rs u (by omega), hlen0]
      omega
    rw [IncrementAux.eq_def, if_neg (by omega)]
    show (if (if (0 : Nat) ≠ (rs.getD u []).length then 0 + 1 else 0) =
            (rs.getD u []).length
          then
            if u + 2 = rs.length ∨ (rs.getD (u + 1) []).isEmpty = false
            then { tag := u + 1, pos := 0 }
            else IncrementAux rs (u + 1) 0
          else { tag := u,
                 pos := (if (0 : Nat) ≠ (rs.getD u []).length then 0 + 1 else 0) }) =
      canonSt rs (pfx rs u)
    rw [hlen0]
    rw [if_neg (by omega : ¬ (0 : Nat) ≠ 0), if_pos rfl]
    by_cases hstop : u + 2 = rs.length ∨ (rs.getD (u + 1) []).isEmpty = false
    · rw [if_pos hstop]
      by_cases hne : (rs.getD (u + 1) []).isEmpty = false
      · have hne' : rs.getD (u + 1) [] ≠ [] := by
          intro h
          rw [h] at hne
          simp at hne
        have hlen1 : 0 < (rs.getD (u + 1) []).length := List.length_pos.mpr hne'
        have hstep1 := pfx_succ rs (u + 1) (by omega)
        rw [show u + 1 + 1 = u + 2 from by omega] at hstep1
        have huu : pfx rs (u + 1 + 1) = pfx rs (u + 2) := by
          rw [show u + 1 + 1 = u + 2 from by omega]
        have hlt : pfx rs u < totalSize rs := by
          have := pfx_le_total rs (u + 2)
          omega
        rw [canonSt_lt _ _ hlt]
        have hj : jOf rs (pfx rs u) = u + 1 :=
          jOf_eq rs (pfx rs u) (u + 1) (by omega) (by omega) (by omega)
        rw [hj]
        congr 1
        omega
      · have h2K : u + 2 = rs.length := by tauto
        have he1 : (rs.getD (u + 1) []).isEmpty = true := by
          cases hb : (rs.getD (u + 1) []).isEmpty
          · exact absurd hb hne
          · rfl
        have hemp1 : rs.getD (u + 1) [] = [] := List.isEmpty_iff.mp he1
        have hlen1 : (rs.getD (u + 1) []).length = 0 := by rw [hemp1]; rfl
        have hstep1 := pfx_succ rs (u + 1) (by omega)
        rw [show u + 1 + 1 = u + 2 from by omega] at hstep1
        have htot : totalSize rs = pfx rs u := by
          have h1 : totalSize rs = pfx rs rs.length := rfl
          rw [h1, ← h2K]
          omega
        rw [← htot, canonSt_total]
        have h1 : rs.length - 1 = u + 1 := by omega
        show ConcatIterator.mk (u + 1) 0 =
          ConcatIterator.mk (rs.length - 1) ((rs.getD (rs.length - 1) []).length)
        rw [h1, hlen1]
    · rw [if_neg hstop]
      push_neg at hstop
      obtain ⟨h2K, hne⟩ := hstop
      have he1 : (rs.getD (u + 1) []).isEmpty = true := by
        cases hb : (rs.getD (u + 1) []).isEmpty
        · exact absurd hb hne
        · rfl
      have hrec := ih (u + 1) (by omega) (by omega) he1
      rw [hrec, hpfxu]

theorem increment_canonSt {α : Type} (rs : List (List α)) (g : Nat) (hK : rs ≠ [])
    (hg : g < totalSize rs) :
    Increment rs (canonSt rs g) = canonSt rs (g + 1) := by
  have hK0 : 0 < rs.length := List.length_pos.mpr hK
  rw [canonSt_lt rs g hg]
  have hjlt := jOf_lt_length rs g hK hg
  have h1 := pfx_jOf_le rs g hK hg
  have h2 := lt_pfx_jOf_succ rs g hK hg
  have hstep := pfx_succ rs (jOf rs g) hjlt
  have hposlen : g - pfx rs (jOf rs g) < (rs.getD (jOf rs g) []).length := by omega
  show IncrementAux rs (jOf rs g) (g - pfx rs (jOf rs g)) = canonSt rs (g + 1)
  rw [IncrementAux.eq_def]
  by_cases hlast : rs.length ≤ jOf rs g + 1
  · rw [if_pos hlast]
    have htot1 : pfx rs (jOf rs g + 1) = totalSize rs := by
      rw [show jOf rs g + 1 = rs.length from by omega]
      rfl
    rcases Nat.lt_or_ge (g + 1) (totalSize rs) with hlt | hge
    · rw [canonSt_lt _ _ hlt]
      have hj2 : jOf rs (g + 1) = jOf rs g :=
        jOf_eq rs (g + 1) (jOf rs g) hjlt (by omega) (by omega)
      rw [hj2]
      show ConcatIterator.mk (jOf rs g) (g - pfx rs (jOf rs g) + 1) =
        ConcatIterator.mk (jOf rs g) (g + 1 - pfx rs (jOf rs g))
      congr 1
      omega
    · have htot1 : pfx rs (jOf rs g + 1) = totalSize rs := by
        have h3 : jOf rs g + 1 = rs.length := by omega
        rw [h3]
        rfl
      have hEq : g + 1 = totalSize rs := by omega
      rw [hEq, canonSt_total]
      show ConcatIterator.mk (jOf rs g) (g - pfx rs (jOf rs g) + 1) =
        ConcatIterator.mk (rs.length - 1) ((rs.getD (rs.length - 1) []).length)
      have h3 : jOf rs g = rs.length - 1 := by omega
      rw [← h3]
      congr 1
      omega
  · rw [if_neg hlast]
    show (if (if g - pfx rs (jOf rs g) ≠ (rs.getD (jOf rs g) []).length
              then g - pfx rs (jOf rs g) + 1 else g - pfx rs (jOf rs g)) =
            (rs.getD (jOf rs g) []).length
          then
            if jOf rs g + 2 = rs.length ∨ (rs.getD (jOf rs g + 1) []).isEmpty = false
            then { tag := jOf rs g + 1, pos := 0 }
            else IncrementAux rs (jOf rs g + 1) 0
          else { tag := jOf rs g,
                 pos := (if g - pfx rs (jOf rs g) ≠ (rs.getD (jOf rs g) []).length
                   then g - pfx rs (jOf rs g) + 1 else g - pfx rs (jOf rs g)) }) =
      canonSt rs (g + 1)
    rw [if_pos (by omega : g - pfx rs (jOf rs g) ≠ (rs.getD (jOf rs g) []).length)]
    by_cases hfull : g - pfx rs (jOf rs g) + 1 = (rs.getD (jOf rs g) []).length
    · rw [if_pos hfull]
      have hg1 : g + 1 = pfx rs (jOf rs g + 1) := by omega
      by_cases hstop : jOf rs g + 2 = rs.length ∨
          (rs.getD (jOf rs g + 1) []).isEmpty = false
      · rw [if_pos hstop]
        rcases Nat.lt_or_ge (g + 1) (totalSize rs) with hlt2 | hge2
        · rw [canonSt_lt _ _ hlt2]
          have hpp : pfx rs (jOf rs g + 1 + 1) = pfx rs (jOf rs g + 2) := by
            rw [show jOf rs g + 1 + 1 = jOf rs g + 2 from by omega]
          have h2' : g + 1 < pfx rs (jOf rs g + 2) := by
            rcases hstop with hstop | hstop
            · have htot2 : pfx rs (jOf rs g + 2) = totalSize rs := by
                rw [hstop]; rfl
              omega
            · have hne' : rs.getD (jOf rs g + 1) [] ≠ [] := by
                intro h
                rw [h] at hstop
                simp at hstop
              have hlen1 : 0 < (rs.getD (jOf rs g + 1) []).length :=
                List.length_pos.mpr hne'
              have hstep1 := pfx_succ rs (jOf rs g + 1) (by omega)
              omega
          have hj2 : jOf rs (g + 1) = jOf rs g + 1 :=
            jOf_eq rs (g + 1) (jOf rs g + 1) (by omega) (by omega) (by omega)
          rw [hj2]
          show ConcatIterator.mk (jOf rs g + 1) 0 =
            ConcatIterator.mk (jOf rs g + 1) (g + 1 - pfx rs (jOf rs g + 1))
          congr 1
          omega
        · have hEq2 : g + 1 = totalSize rs := by
            have := pfx_le_total rs (jOf rs g + 1)
            omega
          have h2K : jOf rs g + 2 = rs.length := by
            rcases hstop with hstop | hstop
            · exact hstop
            · exfalso
              have hne' : rs.getD (jOf rs g + 1) [] ≠ [] := by
                intro h
                rw [h] at hstop
                simp at hstop
              have hlen1 : 0 < (rs.getD (jOf rs g + 1) []).length :=
                List.length_pos.mpr hne'
              have hstep1 := pfx_succ rs (jOf rs g + 1) (by omega)
              have hb := pfx_le_total rs (jOf rs g + 1 + 1)
              omega
          rw [hEq2, canonSt_total]
          have h3 : rs.length - 1 = jOf rs g + 1 := by omega
          have hstep1 := pfx_succ rs (jOf rs g + 1) (by omega)
          have htot2 : pfx rs (jOf rs g + 2) = totalSize rs := by
            rw [h2K]; rfl
          have hpp : pfx rs (jOf rs g + 1 + 1) = pfx rs (jOf rs g + 2) := by
            rw [show jOf rs g + 1 + 1 = jOf rs g + 2 from by omega]
          have hlen1 : (rs.getD (jOf rs g + 1) []).length = 0 := by omega
          show ConcatIterator.mk (jOf rs g + 1) 0 =
            ConcatIterator.mk (rs.length - 1) ((rs.getD (rs.length - 1) []).length)
          rw [h3, hlen1]
      · rw [if_neg hstop]
        push_neg at hstop
        obtain ⟨h2K, hne⟩ := hstop
        have he1 : (rs.getD (jOf rs g + 1) []).isEmpty = true := by
          cases hb : (rs.getD (jOf rs g + 1) []).isEmpty
          · exact absurd hb hne
          · rfl
        have hlast' : jOf rs g + 1 < rs.length := by omega
        have h2K' : jOf rs g + 1 + 1 < rs.length := by omega
        have hskip := incrementAux_empty rs (rs.length - (jOf rs g + 1))
          (jOf rs g + 1) le_rfl h2K' he1
        rw [hskip, hg1]
    · rw [if_neg hfull]
      have hlt2 : g + 1 < totalSize rs := by
        have := pfx_le_total rs (jOf rs g + 1)
        omega
      rw [canonSt_lt _ _ hlt2]
      have hj2 : jOf rs (g + 1) = jOf rs g :=
        jOf_eq rs (g + 1) (jOf rs g) hjlt (by omega) (by omega)
      rw [hj2]
      show ConcatIterator.mk (jOf rs g) (g - pfx rs (jOf rs g) + 1) =
        ConcatIterator.mk (jOf rs g) (g + 1 - pfx rs (jOf rs g))
      congr 1
      omega

/-! #### Begin-construction reaches the canonical cursor at index 0
(provided the concatenation is not a single empty sub-range) -/

theorem mkBegin_canonSt {α : Type} (rs : List (List α)) (hK : rs ≠ [])
    (hgood : (rs.getD 0 []).isEmpty = false ∨ 2 ≤ rs.length) :
    mkBegin rs = canonSt rs 0 := by
  have hK0 : 0 < rs.length := List.length_pos.mpr hK
  by_cases he : (rs.getD 0 []).isEmpty = true
  · have hK2 : 2 ≤ rs.length := by
      rcases hgood with h | h
      · rw [he] at h
        simp at h
      · exact h
    show (if (rs.getD 0 []).isEmpty then Increment rs { tag := 0, pos := 0 }
          else { tag := 0, pos := 0 }) = canonSt rs 0
    rw [if_pos he]
    have hskip := incrementAux_empty rs rs.length 0 (by omega) (by omega) he
    rw [pfx_zero] at hskip
    exact hskip
  · have he' : (rs.getD 0 []).isEmpty = false := by
      cases hb : (rs.getD 0 []).isEmpty
      · rfl
      · exact absurd hb he
    have hne : rs.getD 0 [] ≠ [] := by
      intro h
      rw [h] at he'
      simp at he'
    have hlen0 : 0 < (rs.getD 0 []).length := List.length_pos.mpr hne
    have hstep := pfx_succ rs 0 hK0
    rw [pfx_zero, Nat.zero_add] at hstep
    have hstep1 : pfx rs (0 + 1) = pfx rs 1 := by rw [Nat.zero_add]
    have h0 : 0 < totalSize rs := by
      have := pfx_le_total rs 1
      omega
    show (if (rs.getD 0 []).isEmpty then Increment rs { tag := 0, pos := 0 }
          else { tag := 0, pos := 0 }) = canonSt rs 0
    rw [if_neg (by rw [he']; exact Bool.false_ne_true)]
    rw [canonSt_lt _ _ h0]
    have hj : jOf rs 0 = 0 := jOf_eq rs 0 0 hK0 (by rw [pfx_zero]) (by omega)
    rw [hj, pfx_zero]

/-! #### Traversal from a canonical cursor lists the flattened elements -/

theorem traverse_canonSt {α : Type} (rs : List (List α)) (hK : rs ≠ []) :
    ∀ (fuel g : Nat), g ≤ totalSize rs → totalSize rs - g < fuel →
      traverse rs fuel (canonSt rs g) = (rs.flatten.drop g).map some := by
  intro fuel
  induction fuel with
  | zero => intro g _ hf; omega
  | succ fuel ih =>
    intro g hg hf
    rw [traverse]
    rcases Nat.lt_or_ge g (totalSize rs) with hlt | hge
    · rw [if_neg (by
        rw [← canonSt_total rs]
        have := isEqual_canonSt rs g (totalSize rs) hK hg le_rfl
        rcases hb : IsEqual (canonSt rs g) (canonSt rs (totalSize rs))
        · exact Bool.false_ne_true
        · exact absurd (this.mp hb) (by omega))]
      rw [deref_canonSt rs g hK hlt, increment_canonSt rs g hK hlt]
      rw [ih (g + 1) (by omega) (by omega)]
      have hglen : g < rs.flatten.length := by
        rw [length_flatten_eq_totalSize]
        exact hlt
      rw [List.drop_eq_getElem_cons hglen, List.map_cons,
        List.getElem?_eq_getElem hglen]
    · have hEq : g = totalSize rs := by omega
      subst hEq
      rw [if_pos (by
        rw [← canonSt_total rs]
        exact (isEqual_canonSt rs (totalSize rs) (totalSize rs) hK le_rfl le_rfl).mpr rfl)]
      rw [List.drop_eq_nil_of_le (by rw [length_flatten_eq_totalSize])]
      rfl

/-! #### `Decrement` and `Advance` on canonical cursors -/

theorem decrementAux_from_end {α : Type} (rs : List (List α)) :
    ∀ u, u < rs.length → 0 < pfx rs (u + 1) →
      DecrementAux rs u (rs.getD u []).length = canonSt rs (pfx rs (u + 1) - 1) := by
  intro u
  induction u with
  | zero =>
    intro hu hp
    have hstep := pfx_succ rs 0 hu
    have h01 : pfx rs (0 + 1) = pfx rs 1 := rfl
    have h00 : pfx rs 0 = 0 := pfx_zero rs
    have hlen : 0 < (rs.getD 0 []).length := by omega
    have hcond : ¬((0 : Nat) ≠ 0 ∧ (rs.getD 0 []).length = 0) := by omega
    rw [DecrementAux.eq_def, if_neg hcond]
    have hlt : pfx rs (0 + 1) - 1 < totalSize rs := by
      have := pfx_le_total rs (0 + 1)
      omega
    rw [canonSt_lt _ _ hlt]
    have hj : jOf rs (pfx rs (0 + 1) - 1) = 0 :=
      jOf_eq rs _ 0 hu (by rw [pfx_zero]; omega) (by omega)
    rw [hj, pfx_zero]
    show ConcatIterator.mk 0 ((rs.getD 0 []).length - 1) =
      ConcatIterator.mk 0 (pfx rs (0 + 1) - 1 - 0)
    congr 1
    omega
  | succ u ih =>
    intro hu hp
    have hstep := pfx_succ rs (u + 1) hu
    rw [show u + 1 + 1 = u + 2 from by omega] at hstep
    have hpp : pfx rs (u + 1 + 1) = pfx rs (u + 2) := by
      rw [show u + 1 + 1 = u + 2 from by omega]
    by_cases hlen : (rs.getD (u + 1) []).length = 0
    · have hcond : u + 1 ≠ 0 ∧ (rs.getD (u + 1) []).length = 0 := by omega
      rw [DecrementAux.eq_def, if_pos hcond]
      rw [show u + 1 - 1 = u from by omega]
      have hrec := ih (by omega) (by omega)
      rw [hrec]
      congr 1
      omega
    · have hcond : ¬(u + 1 ≠ 0 ∧ (rs.getD (u + 1) []).length = 0) := by omega
      rw [DecrementAux.eq_def, if_neg hcond]
      have hlt : pfx rs (u + 2) - 1 < totalSize rs := by
        have := pfx_le_total rs (u + 2)
        omega
      have hlt2 : pfx rs (u + 1 + 1) - 1 < totalSize rs := by omega
      rw [canonSt_lt _ _ hlt2]
      have hj : jOf rs (pfx rs (u + 1 + 1) - 1) = u + 1 :=
        jOf_eq rs _ (u + 1) hu (by omega) (by omega)
      rw [hj]
      show ConcatIterator.mk (u + 1) ((rs.getD (u + 1) []).length - 1) =
        ConcatIterator.mk (u + 1) (pfx rs (u + 1 + 1) - 1 - pfx rs (u + 1))
      congr 1
      omega

theorem decrement_canonSt {α : Type} (rs : List (List α)) (g : Nat) (hK : rs ≠ [])
    (hg0 : 0 < g) (hg : g ≤ totalSize rs) :
    Decrement rs (canonSt rs g) = canonSt rs (g - 1) := by
  have hK0 : 0 < rs.length := List.length_pos.mpr hK
  rcases Nat.lt_or_ge g (totalSize rs) with hlt | hge
  · rw [canonSt_lt rs g hlt]
    have hjlt := jOf_lt_length rs g hK hlt
    have h1 := pfx_jOf_le rs g hK hlt
    have h2 := lt_pfx_jOf_succ rs g hK hlt
    have hstep := pfx_succ rs (jOf rs g) hjlt
    show DecrementAux rs (jOf rs g) (g - pfx rs (jOf rs g)) = canonSt rs (g - 1)
    by_cases hp0 : g - pfx rs (jOf rs g) = 0
    · have hgp : g = pfx rs (jOf rs g) := by omega
      have ht0 : jOf rs g ≠ 0 := by
        intro h
        rw [h, pfx_zero] at hgp
        omega
      rw [DecrementAux.eq_def, if_pos ⟨ht0, hp0⟩]
      have hrec := decrementAux_from_end rs (jOf rs g - 1) (by omega)
        (by rw [show jOf rs g - 1 + 1 = jOf rs g from by omega]; omega)
      rw [hrec]
      congr 1
      rw [show jOf rs g - 1 + 1 = jOf rs g from by omega]
      omega
    · have hcond : ¬(jOf rs g ≠ 0 ∧ g - pfx rs (jOf rs g) = 0) := by omega
      rw [DecrementAux.eq_def, if_neg hcond]
      have hlt1 : g - 1 < totalSize rs := by omega
      rw [canonSt_lt _ _ hlt1]
      have hj : jOf rs (g - 1) = jOf rs g :=
        jOf_eq rs (g - 1) (jOf rs g) hjlt (by omega) (by omega)
      rw [hj]
      show ConcatIterator.mk (jOf rs g) (g - pfx rs (jOf rs g) - 1) =
        ConcatIterator.mk (jOf rs g) (g - 1 - pfx rs (jOf rs g))
      congr 1
      omega
  · have hEq : g = totalSize rs := by omega
    subst hEq
    rw [canonSt_total]
    have htot : pfx rs (rs.length - 1 + 1) = totalSize rs := by
      rw [show rs.length - 1 + 1 = rs.length from by omega]
      rfl
    show DecrementAux rs (rs.length - 1) ((rs.getD (rs.length - 1) []).length) =
      canonSt rs (totalSize rs - 1)
    have hrec := decrementAux_from_end rs (rs.length - 1) (by omega) (by omega)
    rw [hrec, htot]

theorem advance_canonSt {α : Type} (rs : List (List α)) (g : Nat) (n : Int)
    (hK : rs ≠ []) (hg : g ≤ totalSize rs) (h0 : 0 ≤ (g : Int) + n)
    (h1 : (g : Int) + n ≤ (totalSize rs : Int)) :
    Advance rs n (canonSt rs g) = canonSt rs ((g : Int) + n).toNat := by
  show SetToIndex rs (IndexOfIterator rs (canonSt rs g) + n) = _
  rw [indexOf_canonSt rs g hK hg]
  have hm : ((g : Int) + n) = ((((g : Int) + n).toNat : Nat) : Int) := by
    rw [Int.toNat_of_nonneg h0]
  conv_lhs => rw [hm]
  apply setToIndex_canonSt rs _ hK
  have : ((((g : Int) + n).toNat : Nat) : Int) ≤ (totalSize rs : Int) := by
    rw [← hm]
    exact h1
  exact_mod_cast this

/-! #### Every reachable cursor is canonical (away from the defective
single-empty-sub-range construction) -/

theorem reachable_canonSt {α : Type} (rs : List (List α)) (s : ConcatIterator)
    (hK : rs ≠ []) (hgood : (rs.getD 0 []).isEmpty = false ∨ 2 ≤ rs.length)
    (hr : ConcatReachable rs s) :
    ∃ g, g ≤ totalSize rs ∧ s = canonSt rs g := by
  induction hr with
  | beginCtor => exact ⟨0, Nat.zero_le _, mkBegin_canonSt rs hK hgood⟩
  | endCtor => exact ⟨totalSize rs, le_rfl, (canonSt_total rs).symm⟩
  | inc s hr hne ih =>
    obtain ⟨g, hg, hEq⟩ := ih
    have hglt : g < totalSize rs := by
      rcases Nat.lt_or_ge g (totalSize rs) with h | h
      · exact h
      · exfalso
        have hgt : g = totalSize rs := by omega
        subst hgt
        rw [hEq, canonSt_total] at hne
        simp [IsEqual] at hne
    exact ⟨g + 1, by omega, by rw [hEq, increment_canonSt rs g hK hglt]⟩
  | dec s hr hne ih =>
    obtain ⟨g, hg, hEq⟩ := ih
    have hg0 : 0 < g := by
      rcases Nat.eq_zero_or_pos g with h | h
      · exfalso
        subst h
        rw [hEq, ← mkBegin_canonSt rs hK hgood] at hne
        simp [IsEqual] at hne
      · exact h
    exact ⟨g - 1, by omega, by rw [hEq, decrement_canonSt rs g hK hg0 hg]⟩
  | adv s n hr h0 h1 ih =>
    obtain ⟨g, hg, hEq⟩ := ih
    rw [hEq] at h0 h1 ⊢
    rw [indexOf_canonSt rs g hK hg] at h0 h1
    refine ⟨((g : Int) + n).toNat, ?_, ?_⟩
    · have : ((((g : Int) + n).toNat : Nat) : Int) ≤ (totalSize rs : Int) := by
        rw [Int.toNat_of_nonneg h0]
        exact h1
      exact_mod_cast this
    · rw [advance_canonSt rs g n hK hg h0 h1]

/-- The C6 invariant away from the defective corner: every reachable cursor
whose active sub-range is empty is exactly the end sentinel. -/
theorem reachable_empty_tag_is_end {α : Type} (rs : List (List α))
    (s : ConcatIterator) (hK : rs ≠ [])
    (hgood : (rs.getD 0 []).isEmpty = false ∨ 2 ≤ rs.length)
    (hr : ConcatReachable rs s) (he : (rs.getD s.tag []).isEmpty = true) :
    s = mkEnd rs := by
  obtain ⟨g, hg, hEq⟩ := reachable_canonSt rs s hK hgood hr
  rcases Nat.lt_or_ge g (totalSize rs) with hlt | hge
  · exfalso
    have hpos := pos_canonSt_lt_len rs g hK hlt
    rw [hEq, canonSt_lt rs g hlt] at he
    have h0 : rs.getD (jOf rs g) [] = [] := List.isEmpty_iff.mp he
    rw [h0] at hpos
    simp at hpos
  · have hEq2 : g = totalSize rs := by omega
    subst hEq2
    rw [hEq, canonSt_total]

theorem flatten_filter_nonempty {α : Type} (rs : List (List α)) :
    (rs.filter (fun r => !r.isEmpty)).flatten = rs.flatten := by
  induction rs with
  | nil => rfl
  | cons r rest ih =>
    rw [List.filter_cons]
    by_cases h : r.isEmpty
    · have hr : r = [] := List.isEmpty_iff.mp h
      rw [if_neg (by rw [h]; simp)]
      rw [ih, hr]
      rfl
    · have h' : r.isEmpty = false := by
        cases hb : r.isEmpty
        · rfl
        · exact absurd hb h
      rw [if_pos (by rw [h']; simp)]
      show r ++ (rest.filter (fun r => !r.isEmpty)).flatten = r ++ rest.flatten
      rw [ih]

end ConcatIterator

/-! ### Window invariant for the circular adjacent cursor -/

theorem isCircWindow_mk (Ln N : Nat) (hN : 1 ≤ N) (h : N ≤ Ln) :
    AdjacentCircularIterator.IsWindow Ln N 0 (AdjacentCircularIterator.mk' (Ln : Int) N 0) := by
  have hnm := not_mem_guardedFill_of_le Ln N h
  refine ⟨length_guardedFill _ _ _, by simp [AdjacentCircularIterator.mk'], ?_, ?_⟩
  · intro j hj
    show (guardedFill (Ln : Int) 0 N).getD ((0 + j) % N) 0 = (((0 + j) % Ln : Nat) : Int)
    have hjj : (0 + j) % N = j := by
      rw [Nat.zero_add]; exact Nat.mod_eq_of_lt hj
    have hjL : (0 + j) % Ln = j := by
      rw [Nat.zero_add]; exact Nat.mod_eq_of_lt (by omega)
    rw [hjj, hjL, guardedFill_getD _ _ _ _ (by positivity) hj]
    have : (j : Int) ≤ Ln := by exact_mod_cast Nat.le_of_lt (by omega)
    omega
  · show (AdjacentCircularIterator.mk' (Ln : Int) N 0).winding = ((0 + N - 1) / Ln : Nat)
    simp only [AdjacentCircularIterator.mk', if_neg hnm]
    rw [Nat.zero_add, Nat.div_eq_of_lt (by omega)]
    simp

theorem isCircWindow_increment (Ln N i : Nat) (s : AdjacentCircularIterator)
    (hN : 1 ≤ N) (hNL : N ≤ Ln)
    (hw : AdjacentCircularIterator.IsWindow Ln N i s) :
    AdjacentCircularIterator.IsWindow Ln N (i + 1)
      (AdjacentCircularIterator.Increment (Ln : Int) s) := by
  obtain ⟨hlen, hoff, hslots⟩ := hw
  obtain ⟨hslots, hwind⟩ := hslots
  have hL : 0 < Ln := by omega
  have hoN : s.offset < N := by rw [hoff]; exact Nat.mod_lt i hN
  have hvval : s.iterators.getD ((s.offset + N - 1) % N) 0 =
      (((i + (N - 1)) % Ln : Nat) : Int) := by
    rw [show (s.offset + N - 1) % N = (s.offset + (N - 1)) % N from by congr 1; omega]
    exact hslots (N - 1) (by omega)
  have hmodlt : (i + (N - 1)) % Ln < Ln := Nat.mod_lt _ hL
  have hsucc := succ_mod_eq (i + (N - 1)) Ln hL
  have hsdiv := Nat.succ_div (i + (N - 1)) Ln
  have haux : i + (N - 1) + 1 = i + N := by omega
  simp only [AdjacentCircularIterator.Increment, hlen, hvval]
  split_ifs with hvL
  · have hc : (i + (N - 1)) % Ln = Ln - 1 := by
      have hvL2 : (((i + (N - 1)) % Ln : Nat) : Int) + 1 = ((Ln : Nat) : Int) := hvL
      omega
    have hdvd : Ln ∣ (i + (N - 1) + 1) := by
      apply Nat.dvd_of_mod_eq_zero
      rw [hsucc, if_pos hc]
    refine ⟨by simp [hlen], ?_, ?_, ?_⟩
    · show (s.offset + 1) % N = (i + 1) % N
      rw [hoff]; exact Nat.mod_add_mod i N 1
    · intro j hj
      show (s.iterators.set s.offset 0).getD (((s.offset + 1) % N + j) % N) 0 =
        (((i + 1 + j) % Ln : Nat) : Int)
      have hidx : (((s.offset + 1) % N + j) % N) = (s.offset + (j + 1)) % N := by
        rw [Nat.mod_add_mod]; congr 1; omega
      rw [hidx]
      rcases Nat.lt_or_ge j (N - 1) with hjN | hjN
      · have hne : s.offset ≠ (s.offset + (j + 1)) % N := by
          intro hEq
          rcases Nat.lt_or_ge (s.offset + (j + 1)) N with hlt | hge
          · rw [Nat.mod_eq_of_lt hlt] at hEq; omega
          · have h2N : s.offset + (j + 1) < 2 * N := by omega
            have : (s.offset + (j + 1)) % N = s.offset + (j + 1) - N := by
              rw [Nat.mod_eq_sub_mod hge, Nat.mod_eq_of_lt (by omega)]
            omega
        rw [getD_set_ne' _ _ _ _ _ hne, hslots (j + 1) (by omega)]
        have harg : i + (j + 1) = i + 1 + j := by omega
        rw [harg]
      · have hjeq : j = N - 1 := by omega
        subst hjeq
        have hidx2 : (s.offset + (N - 1 + 1)) % N = s.offset := by
          rw [show N - 1 + 1 = N from by omega, Nat.add_mod_right]
          exact Nat.mod_eq_of_lt hoN
        rw [hidx2, getD_set_self' _ _ _ _ (by rw [hlen]; exact hoN)]
        rw [show (i + 1 + (N - 1)) % Ln = (i + (N - 1) + 1) % Ln from by
          rw [show i + 1 + (N - 1) = i + (N - 1) + 1 from by omega]]
        rw [hsucc, if_pos hc]
        simp
    · show s.winding + 1 = (((i + 1 + N - 1) / Ln : Nat) : Int)
      rw [hwind]
      have hns : (i + 1 + N - 1) / Ln = (i + N - 1) / Ln + 1 := by
        rw [show i + 1 + N - 1 = i + (N - 1) + 1 from by omega, hsdiv, if_pos hdvd]
        rw [show i + N - 1 = i + (N - 1) from by omega]
      rw [hns]
      push_cast
      ring
  · have hc : (i + (N - 1)) % Ln ≠ Ln - 1 := by
      intro hcc
      apply hvL
      show (((i + (N - 1)) % Ln : Nat) : Int) + 1 = ((Ln : Nat) : Int)
      omega
    have hndvd : ¬ Ln ∣ (i + (N - 1) + 1) := by
      intro hdd
      have hz := Nat.mod_eq_zero_of_dvd hdd
      rw [hsucc, if_neg hc] at hz
      omega
    refine ⟨by simp [hlen], ?_, ?_, ?_⟩
    · show (s.offset + 1) % N = (i + 1) % N
      rw [hoff]; exact Nat.mod_add_mod i N 1
    · intro j hj
      show (s.iterators.set s.offset ((((i + (N - 1)) % Ln : Nat) : Int) + 1)).getD
          (((s.offset + 1) % N + j) % N) 0 = (((i + 1 + j) % Ln : Nat) : Int)
      have hidx : (((s.offset + 1) % N + j) % N) = (s.offset + (j + 1)) % N := by
        rw [Nat.mod_add_mod]; congr 1; omega
      rw [hidx]
      rcases Nat.lt_or_ge j (N - 1) with hjN | hjN
      · have hne : s.offset ≠ (s.offset + (j + 1)) % N := by
          intro hEq
          rcases Nat.lt_or_ge (s.offset + (j + 1)) N with hlt | hge
          · rw [Nat.mod_eq_of_lt hlt] at hEq; omega
          · have h2N : s.offset + (j + 1) < 2 * N := by omega
            have : (s.offset + (j + 1)) % N = s.offset + (j + 1) - N := by
              rw [Nat.mod_eq_sub_mod hge, Nat.mod_eq_of_lt (by omega)]
            omega
        rw [getD_set_ne' _ _ _ _ _ hne, hslots (j + 1) (by omega)]
        have harg : i + (j + 1) = i + 1 + j := by omega
        rw [harg]
      · have hjeq : j = N - 1 := by omega
        subst hjeq
        have hidx2 : (s.offset + (N - 1 + 1)) % N = s.offset := by
          rw [show N - 1 + 1 = N from by omega, Nat.add_mod_right]
          exact Nat.mod_eq_of_lt hoN
        rw [hidx2, getD_set_self' _ _ _ _ (by rw [hlen]; exact hoN)]
        rw [show (i + 1 + (N - 1)) % Ln = (i + (N - 1) + 1) % Ln from by
          rw [show i + 1 + (N - 1) = i + (N - 1) + 1 from by omega]]
        rw [hsucc, if_neg hc]
        push_cast
        ring
    · show s.winding = (((i + 1 + N - 1) / Ln : Nat) : Int)
      rw [hwind]
      have hns : (i + 1 + N - 1) / Ln = (i + N - 1) / Ln := by
        rw [show i + 1 + N - 1 = i + (N - 1) + 1 from by omega, hsdiv, if_neg hndvd]
        rw [show i + N - 1 = i + (N - 1) from by omega]
        omega
      rw [hns]

theorem isCircWindow_iterate (Ln N : Nat) (hN : 1 ≤ N) (h : N ≤ Ln) (i : Nat) :
    AdjacentCircularIterator.IsWindow Ln N i
      ((AdjacentCircularIterator.Increment (Ln : Int))^[i]
        (AdjacentCircularIterator.mk' (Ln : Int) N 0)) := by
  induction i with
  | zero => exact isCircWindow_mk Ln N hN h
  | succ i ih =>
    rw [Function.iterate_succ_apply']
    exact isCircWindow_increment Ln N i _ hN h ih

theorem frontIterator_of_isCircWindow (Ln N i : Nat) (s : AdjacentCircularIterator)
    (hN : 1 ≤ N) (hw : AdjacentCircularIterator.IsWindow Ln N i s) :
    s.FrontIterator = ((i % Ln : Nat) : Int) := by
  obtain ⟨hlen, hoff, hslots, hwind⟩ := hw
  have h0 := hslots 0 (by omega)
  rw [Nat.add_zero] at h0
  rw [Nat.mod_eq_of_lt (by rw [hoff]; exact Nat.mod_lt i hN)] at h0
  simpa [AdjacentCircularIterator.FrontIterator, Nat.add_zero] using h0

theorem frontIterator_mk' (Ln N : Nat) (w : Int) (hN : 1 ≤ N) :
    (AdjacentCircularIterator.mk' (Ln : Int) N w).FrontIterator = 0 := by
  simp only [AdjacentCircularIterator.mk', AdjacentCircularIterator.FrontIterator]
  rw [guardedFill_getD _ _ _ _ (by positivity) (by omega)]
  simp

theorem winding_mk'_of_le (Ln N : Nat) (w : Int) (h : N ≤ Ln) :
    (AdjacentCircularIterator.mk' (Ln : Int) N w).winding = w := by
  simp only [AdjacentCircularIterator.mk', if_neg (not_mem_guardedFill_of_le Ln N h)]

/-! ### Claim C1 -/

/-- C1: refuted on the code.  For the plain circular cursor over a base range
of size 5, take `a` = the begin-constructed cursor and `b` = `a` decremented
once (so `b` lies before `a`, at position 4 with winding -1).  Then
`d = b - a = DistanceTo a b = -1`, but advancing `a` by `d` yields position 4
with winding 0, which is not equal to `b`: `Advance` adds
`distance_from_begin / range_size` to the winding using C++ truncating
division, which rounds `-1 / 5` to `0` instead of the `-1` that the
renormalization of the position requires. -/
theorem circular_advance_by_distance_misses_target :
    CircularIterator.IsEqual
      (CircularIterator.Advance 5
        (CircularIterator.DistanceTo 5 (CircularIterator.mk' 5 0)
          (CircularIterator.Decrement 5 (CircularIterator.mk' 5 0)))
        (CircularIterator.mk' 5 0))
      (CircularIterator.Decrement 5 (CircularIterator.mk' 5 0)) = false ∧
    CircularIterator.Advance 5
        (CircularIterator.DistanceTo 5 (CircularIterator.mk' 5 0)
          (CircularIterator.Decrement 5 (CircularIterator.mk' 5 0)))
        (CircularIterator.mk' 5 0) =
      { pos := 4, winding := 0 } ∧
    CircularIterator.Decrement 5 (CircularIterator.mk' 5 0) =
      { pos := 4, winding := -1 } := by
  decide

/-! ### Claim C2 -/

/-- C2: refuted on the code.  For the circular windowed cursor with `N = 2`
over a base range of size 5, the cursor at window 3 (front position 3,
winding 0, reached by three increments from the begin-constructed cursor) is
not restored by increment-then-decrement: the increment crosses the
trailing-iterator wrap and raises the winding to 1, while the decrement only
lowers the winding at a leading-iterator wrap, so the result has the same
front position but winding 1 and compares unequal. -/
theorem adjacent_circular_increment_decrement_changes_winding :
    AdjacentCircularIterator.IsEqual
      (AdjacentCircularIterator.Decrement 5
        (AdjacentCircularIterator.Increment 5
          ((AdjacentCircularIterator.Increment 5)^[3] (AdjacentCircularIterator.mk' 5 2 0))))
      ((AdjacentCircularIterator.Increment 5)^[3] (AdjacentCircularIterator.mk' 5 2 0)) = false ∧
    (AdjacentCircularIterator.Decrement 5
        (AdjacentCircularIterator.Increment 5
          ((AdjacentCircularIterator.Increment 5)^[3]
            (AdjacentCircularIterator.mk' 5 2 0)))).FrontIterator =
      ((AdjacentCircularIterator.Increment 5)^[3]
        (AdjacentCircularIterator.mk' 5 2 0)).FrontIterator ∧
    (AdjacentCircularIterator.Decrement 5
        (AdjacentCircularIterator.Increment 5
          ((AdjacentCircularIterator.Increment 5)^[3]
            (AdjacentCircularIterator.mk' 5 2 0)))).winding =
      ((AdjacentCircularIterator.Increment 5)^[3]
        (AdjacentCircularIterator.mk' 5 2 0)).winding + 1 := by
  decide

/-! ### Claim C8 -/

/-- C8 counterexample: constructing the windowed circular cursor over an
explicitly empty base range (size 0, `N = 2`) with requested winding 5 does
not normalize the winding to 0: the size-smaller-than-N guard sets it to the
sentinel value 666000. -/
theorem adjacent_circular_empty_base_winding_not_zero :
    (AdjacentCircularIterator.mk' 0 2 5).winding ≠ 0 := by
  decide

/-- C8 amended: the plain circular cursor constructed over an empty base
range normalizes its winding to 0 regardless of the requested winding, so
begin == end holds stably; the windowed circular cursor instead sets the
winding to the sentinel 666000 whenever the base range has fewer than `N`
elements (in particular when it is empty), regardless of the requested
winding, which likewise makes begin == end hold stably. -/
theorem empty_base_construction_stabilizes_begin_eq_end :
    (∀ w : Int,
      (CircularIterator.mk' 0 w).winding = 0 ∧
      CircularIterator.IsEqual (CircularIterator.mk' 0 0) (CircularIterator.mk' 0 w) = true) ∧
    (∀ (Ln N : Nat) (w w2 : Int), Ln < N →
      (AdjacentCircularIterator.mk' (Ln : Int) N w).winding = 666000 ∧
      AdjacentCircularIterator.IsEqual (AdjacentCircularIterator.mk' (Ln : Int) N w)
        (AdjacentCircularIterator.mk' (Ln : Int) N w2) = true) := by
  constructor
  · intro w
    constructor
    · simp [CircularIterator.mk']
    · simp [CircularIterator.mk', CircularIterator.IsEqual]
  · intro Ln N w w2 h
    have hmem := mem_guardedFill_of_lt Ln N h
    constructor
    · simp [AdjacentCircularIterator.mk', hmem]
    · simp [AdjacentCircularIterator.mk', AdjacentCircularIterator.IsEqual,
        AdjacentCircularIterator.FrontIterator, hmem]

/-- C8 amended, witness: the amended statement applied at the empty base
range with `N = 2` and requested windings 5 and 1. -/
theorem empty_base_construction_stabilizes_begin_eq_end_witness :
    (CircularIterator.mk' 0 5).winding = 0 ∧
    (AdjacentCircularIterator.mk' (0 : Nat) 2 5).winding = 666000 ∧
    AdjacentCircularIterator.IsEqual (AdjacentCircularIterator.mk' (0 : Nat) 2 5)
      (AdjacentCircularIterator.mk' (0 : Nat) 2 1) = true :=
  ⟨(empty_base_construction_stabilizes_begin_eq_end.1 5).1,
   (empty_base_construction_stabilizes_begin_eq_end.2 0 2 5 1 (by decide)).1,
   (empty_base_construction_stabilizes_begin_eq_end.2 0 2 5 1 (by decide)).2⟩

/-! ### Claim C10 -/

/-- C10: for the linear windowed cursor, equality and distance depend only on
the trailing (back) base cursor: any two cursors with equal back cursors
compare equal with distance 0, regardless of their other stored cursors and
rotation offsets, and every cursor whose back cursor has reached the base end
`L` equals the end sentinel (whose `N` slots all hold `L`). -/
theorem adjacent_equality_depends_only_on_back_iterator (L : Int) (N : Nat)
    (hN : 1 ≤ N) (s1 s2 : AdjacentIterator)
    (hb : s1.BackIterator = s2.BackIterator) :
    (AdjacentIterator.IsEqual s1 s2 = true ∧ AdjacentIterator.DistanceTo s1 s2 = 0) ∧
    (s1.BackIterator = L →
      AdjacentIterator.IsEqual s1 (AdjacentIterator.mkEnd L N) = true) := by
  have hback : (AdjacentIterator.mkEnd L N).BackIterator = L := by
    have hlt : (0 + (List.replicate N L).length - 1) % (List.replicate N L).length <
        (List.replicate N L).length := by
      simp only [List.length_replicate]
      exact Nat.mod_lt _ (by omega)
    simp only [AdjacentIterator.mkEnd, AdjacentIterator.BackIterator]
    rw [List.getD_eq_getElem _ _ hlt]
    exact List.getElem_replicate _ hlt
  refine ⟨⟨?_, ?_⟩, ?_⟩
  · simp [AdjacentIterator.IsEqual, hb]
  · simp [AdjacentIterator.DistanceTo, hb]
  · intro hL
    simp [AdjacentIterator.IsEqual, hback, hL]

/-- C10 witness: two cursors with the same back cursor (position 7) but
different other slots and rotation offsets compare equal with distance 0, and
a cursor whose back cursor is at the base end compares equal to the end
sentinel. -/
theorem adjacent_equality_depends_only_on_back_iterator_witness :
    (AdjacentIterator.IsEqual { iterators := [7, 3], offset := 1 }
        { iterators := [9, 7], offset := 0 } = true ∧
      AdjacentIterator.DistanceTo { iterators := [7, 3], offset := 1 }
        { iterators := [9, 7], offset := 0 } = 0) ∧
    (AdjacentIterator.BackIterator { iterators := [7, 3], offset := 1 } = 7 →
      AdjacentIterator.IsEqual { iterators := [7, 3], offset := 1 }
        (AdjacentIterator.mkEnd 7 2) = true) :=
  adjacent_equality_depends_only_on_back_iterator 7 2 (by decide)
    { iterators := [7, 3], offset := 1 } { iterators := [9, 7], offset := 0 } (by decide)

/-! ### Claim C9 -/

/-- C9, the half that holds (the claim's other half, `operator[]` of
`AliasRangeFacade`, is ill-formed in the source: it dereferences the `void`
result of `std::advance`): the iterator-pair wrapper `IteratorRange`, at the
circular-cursor instantiation produced by `CircularRange`, exposes the
uniform surface with the expected semantics — `size` is `w * L`, `empty`
holds exactly when the size is 0, the boolean conversion is its negation,
`front` is the first base element, and for every in-range index `i` the
index-operator agrees with dereferencing `begin() + i`, which is the base
element at `i mod L`. -/
theorem iterator_range_uniform_surface {α : Type} (base : List α) (w : Int)
    (hw : 0 ≤ w) :
    IteratorRange.size (base.length) (CircularRange (base.length) w) =
      w * base.length ∧
    (IteratorRange.empty (CircularRange (base.length) w) = true ↔
      w * (base.length : Int) = 0) ∧
    IteratorRange.toBool (CircularRange (base.length) w) =
      !IteratorRange.empty (CircularRange (base.length) w) ∧
    IteratorRange.front base (CircularRange (base.length) w) = elemAt base 0 ∧
    ∀ i : Int, 0 ≤ i → i < w * base.length →
      IteratorRange.getAt base (base.length) (CircularRange (base.length) w) i =
        CircularIterator.Dereference base
          (CircularIterator.Advance (base.length) i
            (CircularRange (base.length) w).begin_) ∧
      IteratorRange.getAt base (base.length) (CircularRange (base.length) w) i =
        elemAt base (i % base.length) := by
  refine ⟨?_, ?_, rfl, rfl, ?_⟩
  · simp only [IteratorRange.size, CircularRange, CircularIterator.mk',
      CircularIterator.DistanceTo]
    split_ifs with h
    · rw [h]; ring
    · ring
  · simp only [IteratorRange.empty, CircularRange, CircularIterator.mk',
      CircularIterator.IsEqual, Bool.and_eq_true, beq_iff_eq]
    split_ifs with h
    · simp [h]
    · constructor
      · rintro ⟨-, hw0⟩
        rw [← hw0]; ring
      · intro hmul
        rcases mul_eq_zero.mp hmul with h0 | h0
        · exact ⟨trivial, h0.symm⟩
        · exact absurd h0 h
  · intro i hi hiw
    have hL : (0 : Int) < base.length := by
      rcases lt_or_ge 0 (base.length : Int) with h | h
      · exact h
      · have hL0 : (base.length : Int) = 0 := le_antisymm (by exact_mod_cast h) (by positivity)
        rw [hL0, mul_zero] at hiw
        omega
    refine ⟨rfl, ?_⟩
    show CircularIterator.Dereference base
        (CircularIterator.Advance (base.length) i (CircularRange (base.length) w).begin_) =
      elemAt base (i % base.length)
    simp only [CircularIterator.Dereference, CircularRange, CircularIterator.mk',
      CircularIterator.Advance]
    congr 1
    show ((0 + i).tmod base.length + base.length).tmod base.length = i % base.length
    have hm0 : (0 : Int) ≤ i % base.length := Int.emod_nonneg i (by omega)
    have hmlt : i % (base.length : Int) < base.length := Int.emod_lt_of_pos i hL
    rw [zero_add, Int.tmod_eq_emod hi (by omega), Int.tmod_eq_emod (by omega) (by omega)]
    calc (i % (base.length : Int) + base.length) % base.length
        = (i % (base.length : Int) + base.length * 1) % base.length := by ring_nf
      _ = i % (base.length : Int) % base.length := by rw [Int.add_mul_emod_self_left]
      _ = i % (base.length : Int) := Int.emod_emod_of_dvd i dvd_rfl

/-! ### Claim C3 -/

/-- C3: for a circular windowed view of window size `N` over a base sequence
of length `L >= N`, with begin at winding 0 and end at winding `w >= 1`,
unit increments from begin first reach a cursor equal to end after exactly
`w * L` steps (so iterating visits exactly `w * L` windows), and window `i`'s
element `j` is base element `(i + j) mod L`. -/
theorem adjacent_circular_window_enumeration {α : Type} (base : List α)
    (N w : Nat) (hN : 1 ≤ N) (hNL : N ≤ base.length) (hw1 : 1 ≤ w) :
    (∀ i : Nat, i < w * base.length →
      AdjacentCircularIterator.IsEqual
        ((AdjacentCircularIterator.Increment (base.length : Int))^[i]
          (AdjacentCircularIterator.mk' (base.length : Int) N 0))
        (AdjacentCircularIterator.mk' (base.length : Int) N (w : Int)) = false) ∧
    AdjacentCircularIterator.IsEqual
      ((AdjacentCircularIterator.Increment (base.length : Int))^[w * base.length]
        (AdjacentCircularIterator.mk' (base.length : Int) N 0))
      (AdjacentCircularIterator.mk' (base.length : Int) N (w : Int)) = true ∧
    (∀ i : Nat, i < w * base.length → ∀ j : Nat, j < N →
      AdjacentCircularIterator.DerefAt base
        ((AdjacentCircularIterator.Increment (base.length : Int))^[i]
          (AdjacentCircularIterator.mk' (base.length : Int) N 0)) j =
        base[(i + j) % base.length]?) := by
  have hL : 0 < base.length := by omega
  have hfe := frontIterator_mk' base.length N (w : Int) hN
  have hwe := winding_mk'_of_le base.length N (w : Int) hNL
  refine ⟨?_, ?_, ?_⟩
  · intro i hi
    have hwnd := isCircWindow_iterate base.length N hN hNL i
    have hfr := frontIterator_of_isCircWindow base.length N i _ hN hwnd
    obtain ⟨-, -, -, hwi⟩ := hwnd
    simp only [AdjacentCircularIterator.IsEqual, hfr, hfe, hwe, hwi,
      Bool.and_eq_false_iff, beq_eq_false_iff_ne, ne_eq]
    by_cases hc : i % base.length = 0
    · right
      obtain ⟨k, hk⟩ := Nat.dvd_of_mod_eq_zero hc
      have hkw : k < w := by
        by_contra hkw
        have : w * base.length ≤ base.length * k := by
          calc w * base.length ≤ k * base.length := by
                exact Nat.mul_le_mul_right _ (by omega)
            _ = base.length * k := Nat.mul_comm _ _
        omega
      have hdiv : (i + N - 1) / base.length = k := by
        rw [show i + N - 1 = (N - 1) + k * base.length from by
          rw [hk]; ring_nf; omega]
        rw [Nat.add_mul_div_right _ _ hL, Nat.div_eq_of_lt (by omega)]
        omega
      rw [hdiv]
      intro hEq
      have : k = w := by exact_mod_cast hEq
      omega
    · left
      intro hEq
      have : i % base.length = 0 := by exact_mod_cast hEq
      omega
  · have hwnd := isCircWindow_iterate base.length N hN hNL (w * base.length)
    have hfr := frontIterator_of_isCircWindow base.length N _ _ hN hwnd
    obtain ⟨-, -, -, hwi⟩ := hwnd
    have hfr0 : (w * base.length) % base.length = 0 := Nat.mul_mod_left w _
    have hdiv : (w * base.length + N - 1) / base.length = w := by
      rw [show w * base.length + N - 1 = (N - 1) + w * base.length from by omega]
      rw [Nat.add_mul_div_right _ _ hL, Nat.div_eq_of_lt (by omega)]
      omega
    simp only [AdjacentCircularIterator.IsEqual, hfr, hfe, hwe, hwi, hfr0, hdiv]
    simp
  · intro i hi j hj
    have hwnd := isCircWindow_iterate base.length N hN hNL i
    obtain ⟨hlen, hoff, hslots, -⟩ := hwnd
    have hoN : ((AdjacentCircularIterator.Increment (base.length : Int))^[i]
        (AdjacentCircularIterator.mk' (base.length : Int) N 0)).offset < N := by
      rw [hoff]; exact Nat.mod_lt i hN
    simp only [AdjacentCircularIterator.DerefAt, hlen]
    rw [show (j + ((AdjacentCircularIterator.Increment (base.length : Int))^[i]
          (AdjacentCircularIterator.mk' (base.length : Int) N 0)).offset) % N =
        (((AdjacentCircularIterator.Increment (base.length : Int))^[i]
          (AdjacentCircularIterator.mk' (base.length : Int) N 0)).offset + j) % N from by
      rw [Nat.add_comm]]
    rw [hslots j hj]
    exact elemAt_natCast base ((i + j) % base.length)

/-- C3 witness: the enumeration applied to the base sequence `[1, 2, 3, 4, 5]`
with window size 2 and one winding: the fifth increment reaches end, the
fourth does not, and window 4's element 1 is base element `(4 + 1) mod 5`. -/
theorem adjacent_circular_window_enumeration_witness :
    (1 : Nat) ≤ 2 ∧ (2 : Nat) ≤ ([1, 2, 3, 4, 5] : List Nat).length ∧ (1 : Nat) ≤ 1 ∧
    AdjacentCircularIterator.IsEqual
      ((AdjacentCircularIterator.Increment (([1, 2, 3, 4, 5] : List Nat).length : Int))^[1 * ([1, 2, 3, 4, 5] : List Nat).length]
        (AdjacentCircularIterator.mk' (([1, 2, 3, 4, 5] : List Nat).length : Int) 2 0))
      (AdjacentCircularIterator.mk' (([1, 2, 3, 4, 5] : List Nat).length : Int) 2 (1 : Int)) = true ∧
    AdjacentCircularIterator.IsEqual
      ((AdjacentCircularIterator.Increment (([1, 2, 3, 4, 5] : List Nat).length : Int))^[4]
        (AdjacentCircularIterator.mk' (([1, 2, 3, 4, 5] : List Nat).length : Int) 2 0))
      (AdjacentCircularIterator.mk' (([1, 2, 3, 4, 5] : List Nat).length : Int) 2 (1 : Int)) = false ∧
    AdjacentCircularIterator.DerefAt ([1, 2, 3, 4, 5] : List Nat)
      ((AdjacentCircularIterator.Increment (([1, 2, 3, 4, 5] : List Nat).length : Int))^[4]
        (AdjacentCircularIterator.mk' (([1, 2, 3, 4, 5] : List Nat).length : Int) 2 0)) 1 =
      ([1, 2, 3, 4, 5] : List Nat)[(4 + 1) % ([1, 2, 3, 4, 5] : List Nat).length]? :=
  ⟨by decide, by decide, by decide,
   (adjacent_circular_window_enumeration ([1, 2, 3, 4, 5] : List Nat) 2 1
     (by decide) (by decide) (by decide)).2.1,
   (adjacent_circular_window_enumeration ([1, 2, 3, 4, 5] : List Nat) 2 1
     (by decide) (by decide) (by decide)).1 4 (by decide),
   (adjacent_circular_window_enumeration ([1, 2, 3, 4, 5] : List Nat) 2 1
     (by decide) (by decide) (by decide)).2.2 4 (by decide) 1 (by decide)⟩

/-! ### Claim C4 -/

/-- C4 counterexample: for the concatenation of a single empty sub-range,
`end() - begin()` is -1, not the sum of the sub-range lengths (0): the
begin-constructor's skip performs `++it` unconditionally on the last
sub-range and steps past its end. -/
theorem concat_single_empty_range_distance_wrong :
    ConcatIterator.DistanceTo ([[]] : List (List Nat))
      (ConcatIterator.mkBegin ([[]] : List (List Nat)))
      (ConcatIterator.mkEnd ([[]] : List (List Nat))) = -1 ∧
    ConcatIterator.totalSize ([[]] : List (List Nat)) = 0 := by
  constructor
  · simp [ConcatIterator.mkBegin, ConcatIterator.Increment, ConcatIterator.IncrementAux,
      ConcatIterator.DistanceTo, ConcatIterator.IndexOfIterator, ConcatIterator.mkEnd,
      ConcatIterator.accumulatedSizes, ConcatIterator.accSizesFrom]
  · rfl

/-- C4 amended: for every concatenation other than a single empty sub-range
(whose begin cursor is defective, see the counterexample),
`end() - begin()` equals the sum of the sub-range lengths, and dereferencing
the begin cursor advanced by `g` yields the element of sub-range `j` at local
offset `g - cumulative[j - 1]`, where `j` (here `jOf rs g`) is the smallest
index with `cumulative[j] > g`. -/
theorem concat_distance_and_random_access {α : Type} (rs : List (List α))
    (hK : rs ≠ []) (hgood : (rs.getD 0 []).isEmpty = false ∨ 2 ≤ rs.length) :
    ConcatIterator.DistanceTo rs (ConcatIterator.mkBegin rs)
      (ConcatIterator.mkEnd rs) = (ConcatIterator.totalSize rs : Int) ∧
    ∀ g : Nat, g < ConcatIterator.totalSize rs →
      (g : Int) < (ConcatIterator.accumulatedSizes rs).getD (ConcatIterator.jOf rs g) 0 ∧
      (∀ j2, j2 < ConcatIterator.jOf rs g →
        (ConcatIterator.accumulatedSizes rs).getD j2 0 ≤ (g : Int)) ∧
      ConcatIterator.Dereference rs
        (ConcatIterator.Advance rs (g : Int) (ConcatIterator.mkBegin rs)) =
        (rs.getD (ConcatIterator.jOf rs g) [])[g - ConcatIterator.pfx rs (ConcatIterator.jOf rs g)]? := by
  have hK0 : 0 < rs.length := List.length_pos.mpr hK
  constructor
  · show ConcatIterator.IndexOfIterator rs (ConcatIterator.mkEnd rs) -
      ConcatIterator.IndexOfIterator rs (ConcatIterator.mkBegin rs) =
      (ConcatIterator.totalSize rs : Int)
    rw [ConcatIterator.mkBegin_canonSt rs hK hgood, ← ConcatIterator.canonSt_total rs,
      ConcatIterator.indexOf_canonSt rs _ hK le_rfl,
      ConcatIterator.indexOf_canonSt rs 0 hK (by omega)]
    ring
  · intro g hg
    refine ⟨?_, ?_, ?_⟩
    · rw [ConcatIterator.accumulatedSizes_getD rs _
        (ConcatIterator.jOf_lt_length rs g hK hg)]
      exact_mod_cast ConcatIterator.lt_pfx_jOf_succ rs g hK hg
    · intro j2 hj2
      exact ConcatIterator.upperBoundIdx_spec_le (g : Int)
        (ConcatIterator.accumulatedSizes rs) j2 hj2
    · show ConcatIterator.Dereference rs
        (ConcatIterator.SetToIndex rs
          (ConcatIterator.IndexOfIterator rs (ConcatIterator.mkBegin rs) + (g : Int))) = _
      rw [ConcatIterator.mkBegin_canonSt rs hK hgood,
        ConcatIterator.indexOf_canonSt rs 0 hK (by omega), Nat.cast_zero, zero_add,
        ConcatIterator.setToIndex_canonSt rs g hK (by omega),
        ConcatIterator.canonSt_lt rs g hg]
      rfl

/-- C4 witness: the amended statement applied to the concatenation of
`[], [1,2,3], [], [4,5,6], []` at global index 3. -/
theorem concat_distance_and_random_access_witness :
    ConcatIterator.DistanceTo ([[], [1, 2, 3], [], [4, 5, 6], []] : List (List Nat))
      (ConcatIterator.mkBegin ([[], [1, 2, 3], [], [4, 5, 6], []] : List (List Nat)))
      (ConcatIterator.mkEnd ([[], [1, 2, 3], [], [4, 5, 6], []] : List (List Nat))) =
      (ConcatIterator.totalSize ([[], [1, 2, 3], [], [4, 5, 6], []] : List (List Nat)) : Int) ∧
    ConcatIterator.Dereference ([[], [1, 2, 3], [], [4, 5, 6], []] : List (List Nat))
      (ConcatIterator.Advance ([[], [1, 2, 3], [], [4, 5, 6], []] : List (List Nat)) (3 : Int)
        (ConcatIterator.mkBegin ([[], [1, 2, 3], [], [4, 5, 6], []] : List (List Nat)))) =
      (([[], [1, 2, 3], [], [4, 5, 6], []] : List (List Nat)).getD
        (ConcatIterator.jOf ([[], [1, 2, 3], [], [4, 5, 6], []] : List (List Nat)) 3) [])[
        3 - ConcatIterator.pfx ([[], [1, 2, 3], [], [4, 5, 6], []] : List (List Nat))
          (ConcatIterator.jOf ([[], [1, 2, 3], [], [4, 5, 6], []] : List (List Nat)) 3)]? :=
  ⟨(concat_distance_and_random_access ([[], [1, 2, 3], [], [4, 5, 6], []] : List (List Nat))
      (by decide) (by decide)).1,
   ((concat_distance_and_random_access ([[], [1, 2, 3], [], [4, 5, 6], []] : List (List Nat))
      (by decide) (by decide)).2 3 (by decide)).2.2⟩

/-! ### Claim C5 -/

/-- C5 counterexample: for the concatenation of a single empty sub-range, the
begin cursor does not equal the end cursor (it sits past the end of the empty
sub-range), so iterating from begin to end does not produce the empty
sequence that concatenating only the non-empty sub-ranges (there are none)
would produce: the first step already dereferences an out-of-range cursor. -/
theorem concat_single_empty_range_iteration_stuck :
    ConcatIterator.IsEqual (ConcatIterator.mkBegin ([[]] : List (List Nat)))
      (ConcatIterator.mkEnd ([[]] : List (List Nat))) = false ∧
    ConcatIterator.traverse ([[]] : List (List Nat))
      (ConcatIterator.totalSize ([[]] : List (List Nat)) + 1)
      (ConcatIterator.mkBegin ([[]] : List (List Nat))) = [none] := by
  constructor
  · simp [ConcatIterator.mkBegin, ConcatIterator.Increment, ConcatIterator.IncrementAux,
      ConcatIterator.IsEqual, ConcatIterator.mkEnd]
  · simp [ConcatIterator.mkBegin, ConcatIterator.Increment, ConcatIterator.IncrementAux,
      ConcatIterator.traverse, ConcatIterator.IsEqual, ConcatIterator.mkEnd,
      ConcatIterator.Dereference, ConcatIterator.totalSize, ConcatIterator.pfx]

/-- C5 amended: for every list of sub-ranges at least one of which is
non-empty, iterating the concatenation from begin to end yields exactly the
flattened elements, and hence the same sequence (element by element and in
total count) as iterating the concatenation of only the non-empty sub-ranges;
the concrete scenario `[], [1,2,3], [], [4,5,6], []` yields `1..6` with
`end - begin = 6` and `begin + 3` dereferencing to 4.  (When every sub-range
is empty the non-empty-only concatenation is not constructible, and for a
single empty sub-range the begin cursor itself is defective — see the
counterexample.) -/
theorem concat_skips_empty_subranges {α : Type} (rs : List (List α))
    (hf : rs.filter (fun r => !r.isEmpty) ≠ []) :
    ConcatIterator.traverse rs (ConcatIterator.totalSize rs + 1)
      (ConcatIterator.mkBegin rs) = rs.flatten.map some ∧
    ConcatIterator.traverse rs (ConcatIterator.totalSize rs + 1)
      (ConcatIterator.mkBegin rs) =
      ConcatIterator.traverse (rs.filter (fun r => !r.isEmpty))
        (ConcatIterator.totalSize (rs.filter (fun r => !r.isEmpty)) + 1)
        (ConcatIterator.mkBegin (rs.filter (fun r => !r.isEmpty))) ∧
    ConcatIterator.traverse ([[], [1, 2, 3], [], [4, 5, 6], []] : List (List Nat))
      (ConcatIterator.totalSize ([[], [1, 2, 3], [], [4, 5, 6], []] : List (List Nat)) + 1)
      (ConcatIterator.mkBegin ([[], [1, 2, 3], [], [4, 5, 6], []] : List (List Nat))) =
      [some 1, some 2, some 3, some 4, some 5, some 6] ∧
    ConcatIterator.DistanceTo ([[], [1, 2, 3], [], [4, 5, 6], []] : List (List Nat))
      (ConcatIterator.mkBegin ([[], [1, 2, 3], [], [4, 5, 6], []] : List (List Nat)))
      (ConcatIterator.mkEnd ([[], [1, 2, 3], [], [4, 5, 6], []] : List (List Nat))) = 6 ∧
    ConcatIterator.Dereference ([[], [1, 2, 3], [], [4, 5, 6], []] : List (List Nat))
      (ConcatIterator.Advance ([[], [1, 2, 3], [], [4, 5, 6], []] : List (List Nat)) 3
        (ConcatIterator.mkBegin ([[], [1, 2, 3], [], [4, 5, 6], []] : List (List Nat)))) =
      some 4 := by
  have hK : rs ≠ [] := by
    intro h
    rw [h] at hf
    exact hf rfl
  have hgood : (rs.getD 0 []).isEmpty = false ∨ 2 ≤ rs.length := by
    rcases rs with - | ⟨r, rest⟩
    · exact absurd rfl hK
    · rcases rest with - | ⟨r2, rest2⟩
      · left
        show r.isEmpty = false
        rw [List.filter_cons] at hf
        by_cases hb : r.isEmpty = true
        · exfalso
          rw [if_neg (by rw [hb]; simp)] at hf
          exact hf rfl
        · cases hb2 : r.isEmpty
          · rfl
          · exact absurd hb2 hb
      · right
        simp
  have hKf : rs.filter (fun r => !r.isEmpty) ≠ [] := hf
  have hgoodf : ((rs.filter (fun r => !r.isEmpty)).getD 0 []).isEmpty = false ∨
      2 ≤ (rs.filter (fun r => !r.isEmpty)).length := by
    left
    cases hm : rs.filter (fun r => !r.isEmpty) with
    | nil => exact absurd hm hKf
    | cons rf restf =>
      have hmem : rf ∈ rs.filter (fun r => !r.isEmpty) := by
        rw [hm]
        exact List.mem_cons_self rf restf
      have hp := List.of_mem_filter hmem
      show rf.isEmpty = false
      cases hb : rf.isEmpty
      · rfl
      · rw [hb] at hp
        exact absurd hp (by simp)
  have h1 : ConcatIterator.traverse rs (ConcatIterator.totalSize rs + 1)
      (ConcatIterator.mkBegin rs) = rs.flatten.map some := by
    rw [ConcatIterator.mkBegin_canonSt rs hK hgood,
      ConcatIterator.traverse_canonSt rs hK _ 0 (by omega) (by omega),
      List.drop_zero]
  have h2 : ConcatIterator.traverse (rs.filter (fun r => !r.isEmpty))
      (ConcatIterator.totalSize (rs.filter (fun r => !r.isEmpty)) + 1)
      (ConcatIterator.mkBegin (rs.filter (fun r => !r.isEmpty))) =
      (rs.filter (fun r => !r.isEmpty)).flatten.map some := by
    rw [ConcatIterator.mkBegin_canonSt _ hKf hgoodf,
      ConcatIterator.traverse_canonSt _ hKf _ 0 (by omega) (by omega),
      List.drop_zero]
  refine ⟨h1, ?_, ?_, ?_, ?_⟩
  · rw [h1, h2, ConcatIterator.flatten_filter_nonempty]
  · simp [ConcatIterator.traverse, ConcatIterator.mkBegin, ConcatIterator.Increment,
      ConcatIterator.IncrementAux, ConcatIterator.IsEqual, ConcatIterator.mkEnd,
      ConcatIterator.Dereference, ConcatIterator.totalSize, ConcatIterator.pfx]
  · simp [ConcatIterator.DistanceTo, ConcatIterator.IndexOfIterator,
      ConcatIterator.mkBegin, ConcatIterator.Increment, ConcatIterator.IncrementAux,
      ConcatIterator.mkEnd, ConcatIterator.accumulatedSizes, ConcatIterator.accSizesFrom]
  · simp [ConcatIterator.Dereference, ConcatIterator.Advance, ConcatIterator.SetToIndex,
      ConcatIterator.IndexOfIterator, ConcatIterator.mkBegin, ConcatIterator.Increment,
      ConcatIterator.IncrementAux, ConcatIterator.accumulatedSizes,
      ConcatIterator.accSizesFrom, ConcatIterator.upperBoundIdx]

/-- C5 witness: the amended statement applied at the concrete scenario
`[], [1,2,3], [], [4,5,6], []`. -/
theorem concat_skips_empty_subranges_witness :
    ConcatIterator.traverse ([[], [1, 2, 3], [], [4, 5, 6], []] : List (List Nat))
      (ConcatIterator.totalSize ([[], [1, 2, 3], [], [4, 5, 6], []] : List (List Nat)) + 1)
      (ConcatIterator.mkBegin ([[], [1, 2, 3], [], [4, 5, 6], []] : List (List Nat))) =
      ([[], [1, 2, 3], [], [4, 5, 6], []] : List (List Nat)).flatten.map some ∧
    ConcatIterator.traverse ([[], [1, 2, 3], [], [4, 5, 6], []] : List (List Nat))
      (ConcatIterator.totalSize ([[], [1, 2, 3], [], [4, 5, 6], []] : List (List Nat)) + 1)
      (ConcatIterator.mkBegin ([[], [1, 2, 3], [], [4, 5, 6], []] : List (List Nat))) =
      ConcatIterator.traverse
        (([[], [1, 2, 3], [], [4, 5, 6], []] : List (List Nat)).filter (fun r => !r.isEmpty))
        (ConcatIterator.totalSize
          (([[], [1, 2, 3], [], [4, 5, 6], []] : List (List Nat)).filter (fun r => !r.isEmpty)) + 1)
        (ConcatIterator.mkBegin
          (([[], [1, 2, 3], [], [4, 5, 6], []] : List (List Nat)).filter (fun r => !r.isEmpty))) :=
  ⟨(concat_skips_empty_subranges ([[], [1, 2, 3], [], [4, 5, 6], []] : List (List Nat))
      (by decide)).1,
   (concat_skips_empty_subranges ([[], [1, 2, 3], [], [4, 5, 6], []] : List (List Nat))
      (by decide)).2.1⟩

/-! ### Claim C6 -/

/-- C6: refuted on the code at the concatenation of a single empty sub-range.
The begin-constructor starts tagged at sub-range 0 and, since it is empty,
performs one `Increment()`; the increment fold's last-sub-range case does
`++it` unconditionally, so the resulting cursor is tagged at the empty
sub-range 0 at position begin+1 — past, and not equal to, the terminal end
position (sub-range 0's end, i.e. position 0) — violating the invariant. -/
theorem concat_begin_single_empty_range_breaks_invariant :
    (ConcatIterator.mkBegin ([[]] : List (List Nat))).tag = 0 ∧
    (([[]] : List (List Nat)).getD 0 []).isEmpty = true ∧
    ConcatIterator.mkBegin ([[]] : List (List Nat)) =
      { tag := 0, pos := 1 } ∧
    ConcatIterator.mkBegin ([[]] : List (List Nat)) ≠
      ConcatIterator.mkEnd ([[]] : List (List Nat)) := by
  refine ⟨?_, by decide, ?_, ?_⟩ <;>
    simp [ConcatIterator.mkBegin, ConcatIterator.Increment, ConcatIterator.IncrementAux,
      ConcatIterator.mkEnd]

/-! ### Claim C7 -/

/-- C7: for a base sequence of length `L >= N`, the linear windowed view
contains exactly `L - N + 1` windows — iterating unit increments from the
begin cursor first reaches the end sentinel after `L - N + 1` steps — and
window `i`'s element `j` is base element `i + j`; for `L < N` the view is
empty, i.e. the begin cursor already equals the end sentinel. -/
theorem adjacent_linear_window_enumeration {α : Type} (base : List α) (N : Nat)
    (hN : 1 ≤ N) :
    (N ≤ base.length →
      (∀ i : Nat, i < base.length - N + 1 →
        AdjacentIterator.IsEqual
          ((AdjacentIterator.Increment)^[i]
            (AdjacentIterator.mkBegin (base.length : Int) N))
          (AdjacentIterator.mkEnd (base.length : Int) N) = false) ∧
      AdjacentIterator.IsEqual
        ((AdjacentIterator.Increment)^[base.length - N + 1]
          (AdjacentIterator.mkBegin (base.length : Int) N))
        (AdjacentIterator.mkEnd (base.length : Int) N) = true ∧
      (∀ i : Nat, i < base.length - N + 1 → ∀ j : Nat, j < N →
        AdjacentIterator.DerefAt base
          ((AdjacentIterator.Increment)^[i]
            (AdjacentIterator.mkBegin (base.length : Int) N)) j =
          base[i + j]?)) ∧
    (base.length < N →
      AdjacentIterator.IsEqual (AdjacentIterator.mkBegin (base.length : Int) N)
        (AdjacentIterator.mkEnd (base.length : Int) N) = true) := by
  constructor
  · intro hNL
    refine ⟨?_, ?_, ?_⟩
    · intro i hi
      have hw := isWindow_iterate base.length N hN hNL i
      have hback := backIterator_of_isWindow N i _ hN hw
      have hend := backIterator_mkEnd (base.length : Int) N hN
      simp only [AdjacentIterator.IsEqual, hback, hend, beq_eq_false_iff_ne, ne_eq]
      intro hEq
      omega
    · have hw := isWindow_iterate base.length N hN hNL (base.length - N + 1)
      have hback := backIterator_of_isWindow N _ _ hN hw
      have hend := backIterator_mkEnd (base.length : Int) N hN
      simp only [AdjacentIterator.IsEqual, hback, hend, beq_iff_eq]
      omega
    · intro i hi j hj
      have hw := isWindow_iterate base.length N hN hNL i
      obtain ⟨hlen, hoff, hslots⟩ := hw
      simp only [AdjacentIterator.DerefAt, hlen]
      rw [show (j + ((AdjacentIterator.Increment)^[i]
            (AdjacentIterator.mkBegin (base.length : Int) N)).offset) % N =
          (((AdjacentIterator.Increment)^[i]
            (AdjacentIterator.mkBegin (base.length : Int) N)).offset + j) % N by
        rw [Nat.add_comm]]
      rw [hslots j hj]
      rw [show ((i : Int) + j) = ((i + j : Nat) : Int) by push_cast; ring]
      exact elemAt_natCast base (i + j)
  · intro hLN
    have h1 : (AdjacentIterator.mkBegin (base.length : Int) N).BackIterator =
        (base.length : Int) := by
      simp only [AdjacentIterator.mkBegin, AdjacentIterator.BackIterator,
        length_guardedFill]
      rw [show (0 + N - 1) % N = N - 1 from by
        rw [Nat.zero_add]; exact Nat.mod_eq_of_lt (by omega)]
      rw [guardedFill_getD _ _ _ _ (by positivity) (by omega)]
      rw [min_eq_right (by omega)]
    simp [AdjacentIterator.IsEqual, h1, backIterator_mkEnd (base.length : Int) N hN]

/-- C7 witness: the enumeration applied to the base sequence
`[10, 20, 30, 40]` with `N = 2` (three windows; window 1's element 1 is base
element 2) and to `[10]` with `N = 3` (empty view). -/
theorem adjacent_linear_window_enumeration_witness :
    (1 : Nat) ≤ 2 ∧ (2 : Nat) ≤ ([10, 20, 30, 40] : List Nat).length ∧
    AdjacentIterator.IsEqual
      ((AdjacentIterator.Increment)^[([10, 20, 30, 40] : List Nat).length - 2 + 1]
        (AdjacentIterator.mkBegin (([10, 20, 30, 40] : List Nat).length : Int) 2))
      (AdjacentIterator.mkEnd (([10, 20, 30, 40] : List Nat).length : Int) 2) = true ∧
    AdjacentIterator.DerefAt ([10, 20, 30, 40] : List Nat)
      ((AdjacentIterator.Increment)^[1]
        (AdjacentIterator.mkBegin (([10, 20, 30, 40] : List Nat).length : Int) 2)) 1 =
      ([10, 20, 30, 40] : List Nat)[1 + 1]? ∧
    AdjacentIterator.IsEqual (AdjacentIterator.mkBegin (([10] : List Nat).length : Int) 3)
      (AdjacentIterator.mkEnd (([10] : List Nat).length : Int) 3) = true :=
  ⟨by decide, by decide,
   ((adjacent_linear_window_enumeration ([10, 20, 30, 40] : List Nat) 2
       (by decide)).1 (by decide)).2.1,
   ((adjacent_linear_window_enumeration ([10, 20, 30, 40] : List Nat) 2
       (by decide)).1 (by decide)).2.2 1 (by decide) 1 (by decide),
   (adjacent_linear_window_enumeration ([10] : List Nat) 3 (by decide)).2 (by decide)⟩

/-- C9 witness: the surface properties applied at the circular range of two
windings over the base sequence `[10, 20, 30]`, evaluated at index 4. -/
theorem iterator_range_uniform_surface_witness :
    (0 : Int) ≤ 2 ∧
    IteratorRange.size (([10, 20, 30] : List Nat).length)
      (CircularRange (([10, 20, 30] : List Nat).length) 2) =
      2 * ([10, 20, 30] : List Nat).length ∧
    IteratorRange.getAt ([10, 20, 30] : List Nat) (([10, 20, 30] : List Nat).length)
      (CircularRange (([10, 20, 30] : List Nat).length) 2) 4 =
      elemAt ([10, 20, 30] : List Nat) (4 % (([10, 20, 30] : List Nat).length : Int)) :=
  ⟨by decide,
   (iterator_range_uniform_surface [10, 20, 30] 2 (by decide)).1,
   ((iterator_range_uniform_surface [10, 20, 30] 2 (by decide)).2.2.2.2 4
     (by decide) (by decide)).2⟩

end Genit
